import Mathlib

/-!
Verification of the navigation core of the azalea repository:
the D* Lite incremental planner (`azalea-pathfinder/src/dstarlite.rs`)
and the AABB geometry engine (`azalea-physics/src/aabb.rs`),
shallowly embedded as executable Lean definitions.
-/

namespace Azalea

/-! ## Weight operations

The Rust planner is generic over a weight type
`W : PartialOrd + Eq + Add + Default + Copy + num_traits::Bounded`.
We bundle the operations that generic code uses into a structure:
`lt` is `<`, `add` is `+`, `zero` is `Default::default()` and
`maxv` is `W::max_value()` (the infinity sentinel).  `a > b` in the
source is modelled as `lt b a`, which agrees with Rust's derived
`PartialOrd` on the (total) weight orders the planner is used with. -/
structure WeightOps (W : Type) where
  lt : W → W → Bool
  add : W → W → W
  zero : W
  maxv : W

/-- Per-node score pair, from `struct VertexScore` (dstarlite.rs:20-24). -/
structure VertexScore (W : Type) where
  g : W
  rhs : W
deriving DecidableEq, Repr

/-- Default (absent) score `(max_value, max_value)` (dstarlite.rs:26-33). -/
def defaultScore {W : Type} (ops : WeightOps W) : VertexScore W :=
  ⟨ops.maxv, ops.maxv⟩

/-- Priority key pair, from `struct Priority<W>(W, W)` (dstarlite.rs:78-81). -/
structure Priority (W : Type) where
  k1 : W
  k2 : W
deriving DecidableEq, Repr

/-- The lexicographic comparison implemented by `Priority`'s
`PartialOrd`/`Ord` (dstarlite.rs:83-103). -/
def prioCmp {W : Type} (ops : WeightOps W) (p q : Priority W) : Ordering :=
  if ops.lt p.k1 q.k1 then Ordering.lt
  else if ops.lt q.k1 p.k1 then Ordering.gt
  else if ops.lt p.k2 q.k2 then Ordering.lt
  else if ops.lt q.k2 p.k2 then Ordering.gt
  else Ordering.eq

/-- Directed weighted edge, from `struct Edge` (dstarlite.rs:66-70). -/
structure Edge (N W : Type) where
  predecessor : N
  successor : N
  cost : W
deriving DecidableEq, Repr

/-- Edge to a target node, from `struct EdgeTo` (dstarlite.rs:72-75). -/
structure EdgeTo (N W : Type) where
  target : N
  cost : W
deriving DecidableEq, Repr

/-- The caller-supplied oracle closures of `DStarLite`
(fields `heuristic`, `successors`, `predecessors`, dstarlite.rs:44-49). -/
structure DStarLiteFns (N W : Type) where
  heuristic : N → N → W
  successors : N → List (EdgeTo N W)
  predecessors : N → List (EdgeTo N W)

/-- The mutable state of `struct DStarLite` (dstarlite.rs:36-64).
`queue` models the external crate `priority_queue::PriorityQueue` as an
association list in insertion order; `vertex_scores` models the
`HashMap` as an association list (the code never iterates the map, so
only lookup/insert/update behaviour is observable). -/
structure DStarLite (N W : Type) where
  start : N
  start_last : N
  goal : N
  queue : List (N × Priority W)
  k_m : W
  vertex_scores : List (N × VertexScore W)
  updated_edge_costs : List (Edge N W × W)
deriving DecidableEq

/-! ### Association-list helpers (HashMap / PriorityQueue views) -/

/-- First value bound to key `n`. -/
def aFind? {N α : Type} [DecidableEq N] : List (N × α) → N → Option α
  | [], _ => none
  | e :: t, n => if e.1 = n then some e.2 else aFind? t n

/-- Replace the value at key `n` (first occurrence), or append the binding
if the key is absent.  Models in-place mutation through
`HashMap::entry`/`get_mut`. -/
def aSet {N α : Type} [DecidableEq N] : List (N × α) → N → α → List (N × α)
  | [], n, v => [(n, v)]
  | e :: t, n, v => if e.1 = n then (n, v) :: t else e :: aSet t n v

/-- `vertex_scores.entry(node).or_default()`: insert the default score if
the node is absent, leaving any present binding untouched
(dstarlite.rs:126-128). -/
def sEnsure {N W : Type} [DecidableEq N] (ops : WeightOps W)
    (m : List (N × VertexScore W)) (n : N) : List (N × VertexScore W) :=
  match aFind? m n with
  | some _ => m
  | none => m ++ [(n, defaultScore ops)]

/-- `fn score` (dstarlite.rs:123-125): lookup with default `(∞, ∞)`. -/
def score {N W : Type} [DecidableEq N] (ops : WeightOps W)
    (st : DStarLite N W) (n : N) : VertexScore W :=
  (aFind? st.vertex_scores n).getD (defaultScore ops)

/-! ### Queue operations

`priority_queue::PriorityQueue` is an addressable binary **max**-heap:
`peek`/`pop` return an entry whose priority is maximal under `Ord`
(which element among equal maximal priorities depends on heap layout;
we model the first such entry in insertion order — every concrete run
proved below has a unique maximum at each pop, and the general theorems
below use only that the popped entry is a member of the queue). -/

/-- `PriorityQueue::get` restricted to its `is_some` uses. -/
def qGet {N W : Type} [DecidableEq N] (q : List (N × Priority W)) (n : N) :
    Option (Priority W) :=
  aFind? q n

/-- `PriorityQueue::push` of an absent item (the code guards all pushes
with an absence check). -/
def qPush {N W : Type} (q : List (N × Priority W)) (n : N) (p : Priority W) :
    List (N × Priority W) :=
  q ++ [(n, p)]

/-- `PriorityQueue::change_priority`: update the priority of a present
item; a no-op when the item is absent. -/
def qChangePriority {N W : Type} [DecidableEq N] (q : List (N × Priority W))
    (n : N) (p : Priority W) : List (N × Priority W) :=
  q.map (fun e => if e.1 = n then (n, p) else e)

/-- `PriorityQueue::remove`: delete the entry with the given key. -/
def qRemove {N W : Type} [DecidableEq N] (q : List (N × Priority W)) (n : N) :
    List (N × Priority W) :=
  q.filter (fun e => e.1 ≠ n)

/-- `PriorityQueue::pop`: remove and return a maximal-priority entry
(the first one in insertion order), together with the remaining queue. -/
def qPop {N W : Type} (ops : WeightOps W) :
    List (N × Priority W) → Option ((N × Priority W) × List (N × Priority W))
  | [] => none
  | e :: t =>
    match qPop ops t with
    | none => some (e, t)
    | some (b, rest) =>
      if prioCmp ops b.2 e.2 = Ordering.gt then some (b, e :: rest)
      else some (e, t)

/-- `PriorityQueue::peek` (same element `pop` would return). -/
def qPeek {N W : Type} (ops : WeightOps W) (q : List (N × Priority W)) :
    Option (N × Priority W) :=
  (qPop ops q).map (fun r => r.1)

/-! ### The planner's methods -/

/-- `fn calculate_key` (dstarlite.rs:130-145). -/
def calculate_key {N W : Type} [DecidableEq N] [DecidableEq W]
    (ops : WeightOps W) (fns : DStarLiteFns N W) (st : DStarLite N W)
    (s : N) : Priority W :=
  let s_score := score ops st s
  let min_score := if ops.lt s_score.g s_score.rhs then s_score.g else s_score.rhs
  ⟨if min_score = ops.maxv then min_score
   else ops.add (ops.add min_score (fns.heuristic st.start s)) st.k_m,
   min_score⟩

/-- `fn update_vertex` (dstarlite.rs:191-201). -/
def update_vertex {N W : Type} [DecidableEq N] [DecidableEq W]
    (ops : WeightOps W) (fns : DStarLiteFns N W) (st : DStarLite N W)
    (u : N) : DStarLite N W :=
  let s := score ops st u
  if s.g ≠ s.rhs ∧ (qGet st.queue u).isSome then
    { st with queue := qChangePriority st.queue u (calculate_key ops fns st u) }
  else if s.g ≠ s.rhs ∧ (qGet st.queue u).isNone then
    { st with queue := qPush st.queue u (calculate_key ops fns st u) }
  else if s.g = s.rhs ∧ (qGet st.queue u).isSome then
    { st with queue := qRemove st.queue u }
  else st

/-- The loop guard of `fn compute_shortest_path` (dstarlite.rs:204-211):
`queue_top < calculate_key(start) || rhs(start) > g(start)`, and `false`
on an empty queue. -/
def cspCond {N W : Type} [DecidableEq N] [DecidableEq W]
    (ops : WeightOps W) (fns : DStarLiteFns N W) (st : DStarLite N W) : Bool :=
  let s := score ops st st.start
  match qPeek ops st.queue with
  | some top =>
    prioCmp ops top.2 (calculate_key ops fns st st.start) = Ordering.lt
      ∨ ops.lt s.g s.rhs
  | none => false

/-- The relaxation applied to each predecessor edge in the
overconsistent case of the loop body (dstarlite.rs:223-230):
`rhs(s) := min(rhs(s), cost + g(u))`, then `update_vertex(s)`
(`score_mut` inserts a default binding even when nothing changes). -/
def cspRelaxBody {N W : Type} [DecidableEq N] [DecidableEq W]
    (ops : WeightOps W) (fns : DStarLiteFns N W) (g_u : W)
    (st : DStarLite N W) (e : EdgeTo N W) : DStarLite N W :=
  let st := { st with vertex_scores := sEnsure ops st.vertex_scores e.target }
  let ts := score ops st e.target
  let st :=
    if ops.lt (ops.add e.cost g_u) ts.rhs then
      { st with vertex_scores := aSet st.vertex_scores e.target ⟨ts.g, ops.add e.cost g_u⟩ }
    else st
  update_vertex ops fns st e.target

/-- The re-derivation applied to each predecessor (and to `u` itself)
in the underconsistent case of the loop body (dstarlite.rs:238-256):
if `rhs(s) = cost + g_old` and `s` is not the goal, recompute `rhs(s)`
as the minimum of `cost(s, s') + g(s')` over successors, then
`update_vertex(s)`. -/
def cspRederiveBody {N W : Type} [DecidableEq N] [DecidableEq W]
    (ops : WeightOps W) (fns : DStarLiteFns N W) (g_old : W)
    (st : DStarLite N W) (e : EdgeTo N W) : DStarLite N W :=
  let st :=
    if (score ops st e.target).rhs = ops.add e.cost g_old ∧ e.target ≠ st.goal then
      let lowest := (fns.successors e.target).foldl (fun lo sp =>
        let sc := ops.add sp.cost (score ops st sp.target).g
        if ops.lt sc lo then sc else lo) ops.maxv
      { st with vertex_scores := aSet st.vertex_scores e.target ⟨(score ops st e.target).g, lowest⟩ }
    else st
  update_vertex ops fns st e.target

/-- One iteration of the `compute_shortest_path` loop body
(dstarlite.rs:212-257), entered when `cspCond` holds. -/
def cspStep {N W : Type} [DecidableEq N] [DecidableEq W]
    (ops : WeightOps W) (fns : DStarLiteFns N W) (st : DStarLite N W) :
    DStarLite N W :=
  match qPop ops st.queue with
  | none => st
  | some ((u, k_old), q1) =>
    let st := { st with queue := q1 }
    let k_new := calculate_key ops fns st u
    if prioCmp ops k_old k_new = Ordering.lt then
      -- `self.queue.change_priority(&u, k_new)`: `u` was just popped,
      -- so this is a no-op on the queue.
      { st with queue := qChangePriority st.queue u k_new }
    else
      -- `let u_score = self.score_mut(&u)` inserts the default if absent
      let st := { st with vertex_scores := sEnsure ops st.vertex_scores u }
      let us := score ops st u
      if ops.lt us.rhs us.g then
        -- overconsistent: g := rhs, remove, relax predecessors
        let st := { st with vertex_scores := aSet st.vertex_scores u ⟨us.rhs, us.rhs⟩ }
        let g_u := us.rhs
        let st := { st with queue := qRemove st.queue u }
        (fns.predecessors u).foldl (cspRelaxBody ops fns g_u) st
      else
        -- underconsistent (or consistent): g := ∞, re-derive dependents
        let g_old := us.g
        let st := { st with vertex_scores := aSet st.vertex_scores u ⟨ops.maxv, us.rhs⟩ }
        (fns.predecessors u ++ [(⟨u, ops.zero⟩ : EdgeTo N W)]).foldl
          (cspRederiveBody ops fns g_old) st

/-- `fn compute_shortest_path` (dstarlite.rs:203-259).  The Rust `while`
loop is modelled with explicit fuel: `some` is returned exactly when the
loop exits within `fuel` iterations. -/
def compute_shortest_path {N W : Type} [DecidableEq N] [DecidableEq W]
    (ops : WeightOps W) (fns : DStarLiteFns N W) :
    Nat → DStarLite N W → Option (DStarLite N W)
  | 0, st => if cspCond ops fns st then none else some st
  | fuel + 1, st =>
    if cspCond ops fns st then
      compute_shortest_path ops fns fuel (cspStep ops fns st)
    else some st

/-- The state built by `fn new` (dstarlite.rs:147-186) before the final
`compute_shortest_path` call. -/
def newInit {N W : Type} (ops : WeightOps W) (fns : DStarLiteFns N W)
    (start goal : N) : DStarLite N W :=
  { start := start
    start_last := start
    goal := goal
    queue := [(goal, ⟨fns.heuristic start goal, ops.zero⟩)]
    k_m := ops.zero
    vertex_scores := [(goal, ⟨ops.maxv, ops.zero⟩)]
    updated_edge_costs := [] }

/-- `fn new` (dstarlite.rs:147-189): seed the goal and run the main
computation to convergence (with the given fuel). -/
def newDStarLite {N W : Type} [DecidableEq N] [DecidableEq W]
    (ops : WeightOps W) (fns : DStarLiteFns N W) (start goal : N)
    (fuel : Nat) : Option (DStarLite N W) :=
  compute_shortest_path ops fns fuel (newInit ops fns start goal)

/-- The body of the `while let Some((edge, new_cost))` loop of
`fn update_from_updated_edges` (dstarlite.rs:265-288), for one buffered
update. -/
def updateEdgeStep {N W : Type} [DecidableEq N] [DecidableEq W]
    (ops : WeightOps W) (fns : DStarLiteFns N W) (st : DStarLite N W)
    (edge : Edge N W) (new_cost : W) : DStarLite N W :=
  let old_cost := edge.cost
  -- `let target_score = self.score_mut(&edge.successor)` inserts a default
  let st := { st with vertex_scores := sEnsure ops st.vertex_scores edge.successor }
  let ts := score ops st edge.successor
  let st :=
    if ops.lt new_cost old_cost then
      if ops.lt (ops.add new_cost ts.g) ts.rhs then
        { st with vertex_scores := aSet st.vertex_scores edge.successor ⟨ts.g, ops.add new_cost ts.g⟩ }
      else st
    else if ts.rhs = ops.add old_cost ts.g then
      if edge.successor ≠ st.goal then
        let lowest := (fns.successors edge.successor).foldl (fun lo s =>
          let sc := ops.add s.cost ts.g
          if ops.lt sc lo then sc else lo) ops.maxv
        { st with vertex_scores := aSet st.vertex_scores edge.successor ⟨ts.g, lowest⟩ }
      else st
    else st
  update_vertex ops fns st edge.successor

/-- Drain a list of buffered updates, most recently pushed first
(`Vec::pop` takes from the back). -/
def drainUpdates {N W : Type} [DecidableEq N] [DecidableEq W]
    (ops : WeightOps W) (fns : DStarLiteFns N W) :
    List (Edge N W × W) → DStarLite N W → DStarLite N W
  | [], st => st
  | (e, c) :: rest, st => drainUpdates ops fns rest (updateEdgeStep ops fns st e c)

/-- `fn update_from_updated_edges` (dstarlite.rs:261-289): absorb the
start's movement into `k_m`, then drain the buffered edge updates in
reverse submission order.  Note that the function ends here: the Rust
code contains no further call to `compute_shortest_path`. -/
def update_from_updated_edges {N W : Type} [DecidableEq N] [DecidableEq W]
    (ops : WeightOps W) (fns : DStarLiteFns N W) (st : DStarLite N W) :
    DStarLite N W :=
  let st := { st with
    k_m := ops.add st.k_m (fns.heuristic st.start st.start_last)
    start_last := st.start }
  drainUpdates ops fns st.updated_edge_costs.reverse
    { st with updated_edge_costs := [] }

/-- Outcome of `fn try_next`: `Result<Option<&N>, NoPathError>`. -/
inductive TryNextResult (N : Type) where
  | ok (next : Option N)
  | errNoPath
deriving DecidableEq, Repr

/-- `fn try_next` (dstarlite.rs:292-317).  Returns `none` exactly when
the Rust code would panic (`expect("No possible successors")`), i.e.
when the successor list of a non-goal start with finite `rhs` is empty. -/
def try_next {N W : Type} [DecidableEq N] [DecidableEq W]
    (ops : WeightOps W) (fns : DStarLiteFns N W) (st : DStarLite N W) :
    Option (TryNextResult N × DStarLite N W) :=
  if st.start = st.goal then some (TryNextResult.ok none, st)
  else
    let start_score := score ops st st.start
    if start_score.rhs = ops.maxv then some (TryNextResult.errNoPath, st)
    else
      let get_score := fun (edge : EdgeTo N W) =>
        let g_score := (score ops st edge.target).g
        if g_score = ops.maxv then ops.maxv else ops.add edge.cost g_score
      match fns.successors st.start with
      | [] => none
      | e :: rest =>
        -- `Iterator::min_by` keeps the first of equally minimal elements
        let best := rest.foldl (fun b x =>
          if ops.lt (get_score x) (get_score b) then x else b) e
        some (TryNextResult.ok (some best.target), { st with start := best.target })

/-- Iterate `try_next` and record the returned values (stopping the
trace at a panic). -/
def tryNextTrace {N W : Type} [DecidableEq N] [DecidableEq W]
    (ops : WeightOps W) (fns : DStarLiteFns N W) :
    Nat → DStarLite N W → List (Option (TryNextResult N))
  | 0, _ => []
  | k + 1, st =>
    match try_next ops fns st with
    | none => [none]
    | some (r, st') => some r :: tryNextTrace ops fns k st'

/-! ## Concrete weight instances -/

/-- Weight operations of `usize`, the weight type of the repository's own
test (`test_dstarlite`): natural numbers with
`max_value = 2^64 - 1`.  No addition in the concrete runs proved below
comes anywhere near the bound, so unbounded `Nat` addition models
`usize` addition faithfully on those runs. -/
def opsNat : WeightOps Nat :=
  ⟨fun a b => decide (a < b), Nat.add, 0, 18446744073709551615⟩

/-- A two-valued weight instance (`0` and `∞`) satisfying all the
algebraic laws the generic theorems assume; used to instantiate them. -/
def opsBool : WeightOps Bool :=
  ⟨fun a b => !a && b, fun a b => a || b, false, true⟩

/-! ## The maze scenario of `test_dstarlite` (dstarlite.rs:330-421) -/

/-- The 5×5 maze of the repository's test (0 = open, 1 = wall). -/
def mazeGrid : List (List Nat) :=
  [[0,1,0,0,0],[0,1,0,1,0],[0,0,0,1,0],[0,1,0,1,0],[0,0,1,0,0]]

/-- `maze[y][x]` (all accesses in the run are in bounds). -/
def mazeAt (x y : Nat) : Nat := (mazeGrid.getD y []).getD x 1

/-- The test's Manhattan heuristic (dstarlite.rs:341-343). -/
def manhattan (a b : Nat × Nat) : Nat :=
  ((a.1 : Int) - (b.1 : Int)).natAbs + ((a.2 : Int) - (b.2 : Int)).natAbs

/-- The test's `successors`/`predecessors` closure (dstarlite.rs:344-405):
the open 4-neighbours, enumerated left, right, up, down, each with
cost 1 (`width = height = 5`). -/
def mazeNeighbors (a : Nat × Nat) : List (EdgeTo (Nat × Nat) Nat) :=
  (if 0 < a.1 ∧ mazeAt (a.1 - 1) a.2 = 0
    then [(⟨(a.1 - 1, a.2), 1⟩ : EdgeTo (Nat × Nat) Nat)] else []) ++
  (if a.1 < 4 ∧ mazeAt (a.1 + 1) a.2 = 0 then [⟨(a.1 + 1, a.2), 1⟩] else []) ++
  (if 0 < a.2 ∧ mazeAt a.1 (a.2 - 1) = 0 then [⟨(a.1, a.2 - 1), 1⟩] else []) ++
  (if a.2 < 4 ∧ mazeAt a.1 (a.2 + 1) = 0 then [⟨(a.1, a.2 + 1), 1⟩] else [])

/-- The oracle triple of the maze test. -/
def mazeFns : DStarLiteFns (Nat × Nat) Nat := ⟨manhattan, mazeNeighbors, mazeNeighbors⟩

/-! ## Small concrete graphs for the planner claims -/

/-- Successors of the diamond graph A=0, B=1, C=2, G=3 with
A→B cost 1, B→G cost 10, A→C cost 1, C→G cost 1. -/
def diamondSucc : Nat → List (EdgeTo Nat Nat)
  | 0 => [⟨1, 1⟩, ⟨2, 1⟩]
  | 1 => [⟨3, 10⟩]
  | 2 => [⟨3, 1⟩]
  | _ => []

/-- Predecessor-edge enumeration of the same diamond graph. -/
def diamondPred : Nat → List (EdgeTo Nat Nat)
  | 1 => [⟨0, 1⟩]
  | 2 => [⟨0, 1⟩]
  | 3 => [⟨1, 10⟩, ⟨2, 1⟩]
  | _ => []

/-- Diamond-graph oracle with the zero heuristic (admissible and
consistent for these nonnegative costs). -/
def diamondFns : DStarLiteFns Nat Nat := ⟨fun _ _ => 0, diamondSucc, diamondPred⟩

/-- The planner state after the first iteration of the initial
`compute_shortest_path` run of `new(0, 3, ...)` on the diamond graph
(the iteration that pops the goal and queues B and C). -/
def diamondState1 : DStarLite Nat Nat :=
  cspStep opsNat diamondFns (newInit opsNat diamondFns 0 3)

/-- Successors of the graph A=0, B=1, C=2, G=3 with A→B cost 1,
B→G cost 1, A→C cost 1 and C→G cost `cg` (parameterised so the same
graph can be used before and after an edge-cost update). -/
def twoRouteSucc (cg : Nat) : Nat → List (EdgeTo Nat Nat)
  | 0 => [⟨1, 1⟩, ⟨2, 1⟩]
  | 1 => [⟨3, 1⟩]
  | 2 => [⟨3, cg⟩]
  | _ => []

/-- Predecessor-edge enumeration of the same two-route graph. -/
def twoRoutePred (cg : Nat) : Nat → List (EdgeTo Nat Nat)
  | 1 => [⟨0, 1⟩]
  | 2 => [⟨0, 1⟩]
  | 3 => [⟨1, 1⟩, ⟨2, cg⟩]
  | _ => []

/-- Two-route oracle with the zero heuristic and C→G cost `cg`. -/
def twoRouteFns (cg : Nat) : DStarLiteFns Nat Nat :=
  ⟨fun _ _ => 0, twoRouteSucc cg, twoRoutePred cg⟩

/-- The planner after `new(0, 3, ...)` on the two-route graph with
C→G cost 4, followed by buffering the decrease of edge C→G to cost 3
and calling `update_from_updated_edges` with the mutated oracle. -/
def twoRouteAfterUpdate : Option (DStarLite Nat Nat) :=
  (newDStarLite opsNat (twoRouteFns 4) 0 3 20).map (fun st =>
    update_from_updated_edges opsNat (twoRouteFns 3)
      { st with updated_edge_costs := [(⟨2, 3, 4⟩, 3)] })

/-- Minimum of two optional costs (`none` = unreachable). -/
def optMin : Option Nat → Option Nat → Option Nat
  | none, b => b
  | a, none => a
  | some a, some b => some (min a b)

/-- Modelled from the spec: one relaxation round of the reference
"from-scratch shortest-path recomputation on the mutated graph"
(spec §8) that the incremental planner is compared against; the
recomputation itself is not part of the repository. -/
def refRound {N : Type} [DecidableEq N] (fns : DStarLiteFns N Nat)
    (d : List (N × Option Nat)) : List (N × Option Nat) :=
  d.map (fun p =>
    (p.1, (fns.successors p.1).foldl (fun acc e =>
      match (aFind? d e.target).getD none with
      | none => acc
      | some c => optMin acc (some (e.cost + c))) p.2))

/-- Modelled from the spec: reference cost-to-goal table after `rounds`
relaxation rounds over the listed nodes (Bellman–Ford value iteration;
`rounds` at least the number of nodes gives exact distances). -/
def refCosts {N : Type} [DecidableEq N] (fns : DStarLiteFns N Nat)
    (nodes : List N) (goal : N) : Nat → List (N × Option Nat)
  | 0 => nodes.map (fun n => (n, if n = goal then some 0 else none))
  | r + 1 => refRound fns (refCosts fns nodes goal r)

/-! ## Geometry engine (azalea-physics/src/aabb.rs)

Scalars of type `f64` are modelled as exact extended rationals: finite
arithmetic is exact (no rounding), while the IEEE-754 special values
that the clipping code can produce — ±infinity from division by zero
and NaN from `0/0` — are represented explicitly with their IEEE
comparison behaviour.  Every property proved below about concrete
inputs is robust: its comparison outcomes have slack far larger than
any double-rounding error, so the exact-rational model and genuine
`f64` agree on them. -/

/-- An `f64` value: a finite (exact) rational, `+∞`, `-∞`, or NaN. -/
inductive FP where
  | fin (q : ℚ)
  | pinf
  | ninf
  | nan
deriving DecidableEq, Repr

/-- IEEE `<`: any comparison with NaN is false. -/
def FP.lt : FP → FP → Bool
  | .fin a, .fin b => decide (a < b)
  | .fin _, .pinf => true
  | .ninf, .fin _ => true
  | .ninf, .pinf => true
  | _, _ => false

/-- IEEE `<=`: any comparison with NaN is false. -/
def FP.ble : FP → FP → Bool
  | .fin a, .fin b => decide (a ≤ b)
  | .fin _, .pinf => true
  | .ninf, .ninf => true
  | .ninf, .fin _ => true
  | .ninf, .pinf => true
  | .pinf, .pinf => true
  | _, _ => false

/-- IEEE negation. -/
def FP.neg : FP → FP
  | .fin a => .fin (-a)
  | .pinf => .ninf
  | .ninf => .pinf
  | .nan => .nan

/-- IEEE addition (exact on finite values); `∞ + (-∞) = NaN`. -/
def FP.add : FP → FP → FP
  | .fin a, .fin b => .fin (a + b)
  | .fin _, .pinf => .pinf
  | .fin _, .ninf => .ninf
  | .pinf, .fin _ => .pinf
  | .ninf, .fin _ => .ninf
  | .pinf, .pinf => .pinf
  | .ninf, .ninf => .ninf
  | _, _ => .nan

/-- IEEE subtraction. -/
def FP.sub (a b : FP) : FP := FP.add a (FP.neg b)

/-- IEEE multiplication (exact on finite values); `0 * ∞ = NaN`. -/
def FP.mul : FP → FP → FP
  | .fin a, .fin b => .fin (a * b)
  | .fin a, .pinf => if 0 < a then .pinf else if a < 0 then .ninf else .nan
  | .fin a, .ninf => if 0 < a then .ninf else if a < 0 then .pinf else .nan
  | .pinf, .fin b => if 0 < b then .pinf else if b < 0 then .ninf else .nan
  | .ninf, .fin b => if 0 < b then .ninf else if b < 0 then .pinf else .nan
  | .pinf, .pinf => .pinf
  | .pinf, .ninf => .ninf
  | .ninf, .pinf => .ninf
  | .ninf, .ninf => .pinf
  | _, _ => .nan

/-- IEEE division (exact on finite values): a nonzero finite value
divided by zero gives a signed infinity, `0/0` gives NaN. -/
def FP.div : FP → FP → FP
  | .fin a, .fin b =>
    if b = 0 then (if 0 < a then .pinf else if a < 0 then .ninf else .nan)
    else .fin (a / b)
  | .fin _, .pinf => .fin 0
  | .fin _, .ninf => .fin 0
  | .pinf, .fin b => if b < 0 then .ninf else .pinf
  | .ninf, .fin b => if b < 0 then .pinf else .ninf
  | _, _ => .nan

/-- Modelled from the spec: `Vec3` lives in azalea-core, which is not
under src/; a triple of coordinates (spec §3 uses it as the impact
point and segment endpoints of a clip). -/
structure Vec3 where
  x : FP
  y : FP
  z : FP
deriving DecidableEq, Repr

/-- Modelled from the spec: `Vec3::add` (azalea-core, not under src/)
offsets each coordinate, as used by `clip` in
`min.add(t * x, t * y, t * z)`. -/
def Vec3.add (v : Vec3) (dx dy dz : FP) : Vec3 :=
  ⟨FP.add v.x dx, FP.add v.y dy, FP.add v.z dz⟩

/-- Modelled from the spec: `Direction` (azalea-core, not under src/),
"one of six axis-aligned face normals (±X, ±Y, ±Z), used only as the
output label of a ray/box clip" (spec §3); the variant names are the
ones aabb.rs passes to `clip_point`. -/
inductive Direction where
  | west
  | east
  | down
  | up
  | north
  | south
deriving DecidableEq, Repr

/-- `EPSILON = 1.0E-7` (aabb.rs:4). -/
def EPSILON : FP := .fin (1 / 10000000)

/-- `struct AABB` (aabb.rs:6-15). -/
structure AABB where
  min_x : FP
  min_y : FP
  min_z : FP
  max_x : FP
  max_y : FP
  max_z : FP
deriving DecidableEq, Repr

/-- `fn contains` (aabb.rs:186-193). -/
def AABB.contains (s : AABB) (x y z : FP) : Bool :=
  FP.ble s.min_x x && FP.lt x s.max_x
    && FP.ble s.min_y y && FP.lt y s.max_y
    && FP.ble s.min_z z && FP.lt z s.max_z

/-- `fn clip_point` (aabb.rs:377-409).  The in-out parameter `t: &mut
[f64]` is modelled by returning the (possibly updated) `t` next to the
direction. -/
def AABB.clip_point (t : FP) (approach_dir : Option Direction)
    (delta_x delta_y delta_z begin_ min_x max_x min_z max_z : FP)
    (result_dir : Direction) (start_x start_y start_z : FP) :
    FP × Option Direction :=
  let t_x := FP.div (FP.sub begin_ start_x) delta_x
  let t_y := FP.div (FP.add start_y t_x) delta_y
  let t_z := FP.div (FP.add start_z t_x) delta_z
  if FP.lt (.fin 0) t_x && FP.lt t_x t
      && FP.lt (FP.sub min_x EPSILON) t_y && FP.lt t_y (FP.add max_x EPSILON)
      && FP.lt (FP.sub min_z EPSILON) t_z && FP.lt t_z (FP.add max_z EPSILON)
  then (t_x, some result_dir)
  else (t, approach_dir)

/-- `fn get_direction` (aabb.rs:256-375).  Note the `return` in every
branch of the source: the first axis whose motion component exceeds
`EPSILON` in magnitude decides the result on its own. -/
def AABB.get_direction (aabb : AABB) (vfrom : Vec3) (t : FP)
    (dir : Option Direction) (x y z : FP) : FP × Option Direction :=
  if FP.lt EPSILON x then
    AABB.clip_point t dir x y z aabb.min_x aabb.min_y aabb.max_y
      aabb.min_z aabb.max_z Direction.west vfrom.x vfrom.y vfrom.z
  else if FP.lt x (FP.neg EPSILON) then
    AABB.clip_point t dir x y z aabb.max_x aabb.min_y aabb.max_y
      aabb.min_z aabb.max_z Direction.east vfrom.x vfrom.y vfrom.z
  else if FP.lt EPSILON y then
    AABB.clip_point t dir y z x aabb.min_y aabb.min_z aabb.max_z
      aabb.min_x aabb.max_x Direction.down vfrom.y vfrom.z vfrom.x
  else if FP.lt y (FP.neg EPSILON) then
    AABB.clip_point t dir y z x aabb.max_y aabb.min_z aabb.max_z
      aabb.min_x aabb.max_x Direction.up vfrom.y vfrom.z vfrom.x
  else if FP.lt EPSILON z then
    AABB.clip_point t dir z x y aabb.min_z aabb.min_x aabb.max_x
      aabb.min_y aabb.max_y Direction.north vfrom.z vfrom.x vfrom.y
  else if FP.lt z (FP.neg EPSILON) then
    AABB.clip_point t dir z x y aabb.max_z aabb.min_x aabb.max_x
      aabb.min_y aabb.max_y Direction.south vfrom.z vfrom.x vfrom.y
  else (t, dir)

/-- `fn clip` (aabb.rs:214-225). -/
def AABB.clip (s : AABB) (mn mx : Vec3) : Option Vec3 :=
  let x := FP.sub mx.x mn.x
  let y := FP.sub mx.y mn.y
  let z := FP.sub mx.z mn.z
  let r := AABB.get_direction s mn (.fin 1) none x y z
  match r.2 with
  | none => none
  | some _ => some (mn.add (FP.mul r.1 x) (FP.mul r.1 y) (FP.mul r.1 z))

/-! ## Concrete boxes and states used as claim inputs -/

/-- The AABB with corners `(-1,-1,-1)` and `(1,1,1)`. -/
def c5box : AABB :=
  ⟨.fin (-1), .fin (-1), .fin (-1), .fin 1, .fin 1, .fin 1⟩

/-- The unit box `(0,0,0)-(1,1,1)`. -/
def unitBox : AABB := ⟨.fin 0, .fin 0, .fin 0, .fin 1, .fin 1, .fin 1⟩

/-- A planner state with undiscovered start 0 (score `(∞,∞)`) and goal 1. -/
def undiscoveredStartState : DStarLite Nat Nat :=
  { start := 0, start_last := 0, goal := 1, queue := [], k_m := 0,
    vertex_scores := [], updated_edge_costs := [] }

/-- A planner state whose start has the finite score `(5, 7)` and
`k_m = 2`. -/
def finiteStartState : DStarLite Nat Nat :=
  { start := 0, start_last := 0, goal := 1, queue := [], k_m := 2,
    vertex_scores := [(0, ⟨5, 7⟩)], updated_edge_costs := [] }

/-! ## The open-queue consistency invariant (claim C4) -/

/-- A node is *inconsistent* when `g ≠ rhs` (spec §3; undiscovered nodes
have the default score `(∞, ∞)` and so are consistent). -/
def Inconsistent {N W : Type} [DecidableEq N] (ops : WeightOps W)
    (st : DStarLite N W) (n : N) : Prop :=
  (score ops st n).g ≠ (score ops st n).rhs

/-- The open queue holds exactly the discovered inconsistent nodes:
every queued node is discovered and inconsistent, and every discovered
inconsistent node is queued. -/
def QueueInv {N W : Type} [DecidableEq N] (ops : WeightOps W)
    (st : DStarLite N W) : Prop :=
  (∀ e ∈ st.queue, (aFind? st.vertex_scores e.1).isSome ∧ Inconsistent ops st e.1)
  ∧ (∀ e ∈ st.vertex_scores, Inconsistent ops st e.1 → (qGet st.queue e.1).isSome)

/-- Every queued priority equals the node's current `calculate_key`
(maintained throughout the initial `compute_shortest_path` run, where
`start` and `k_m` never move). -/
def KeysFresh {N W : Type} [DecidableEq N] [DecidableEq W]
    (ops : WeightOps W) (fns : DStarLiteFns N W) (st : DStarLite N W) : Prop :=
  ∀ e ∈ st.queue, e.2 = calculate_key ops fns st e.1

/-- `QueueInv` weakened to hold only outside an exception set `xs`
(mid-method states violate the invariant exactly at the node being
re-canonicalised). -/
def QueueInvExcept {N W : Type} [DecidableEq N] (ops : WeightOps W)
    (st : DStarLite N W) (xs : N → Prop) : Prop :=
  (∀ e ∈ st.queue, ¬ xs e.1 →
    (aFind? st.vertex_scores e.1).isSome ∧ Inconsistent ops st e.1)
  ∧ (∀ e ∈ st.vertex_scores, ¬ xs e.1 → Inconsistent ops st e.1 →
    (qGet st.queue e.1).isSome)

/-- `KeysFresh` outside an exception set. -/
def KeysFreshExcept {N W : Type} [DecidableEq N] [DecidableEq W]
    (ops : WeightOps W) (fns : DStarLiteFns N W) (st : DStarLite N W)
    (xs : N → Prop) : Prop :=
  ∀ e ∈ st.queue, ¬ xs e.1 → e.2 = calculate_key ops fns st e.1

/-! ## Lawful weights and run invariants (for the termination claim) -/

/-- The weight operations induced by a linearly ordered additive
commutative monoid with a designated sentinel: the spec's contract for
Weight (totally ordered, addition, additive identity, maximum
sentinel; spec §3 and §9). -/
def lawfulOps (W : Type) [LinearOrder W] [AddCommMonoid W] (maxv : W) :
    WeightOps W :=
  ⟨fun a b => decide (a < b), fun a b => a + b, 0, maxv⟩

/-- No node is underconsistent: `rhs ≤ g` everywhere.  This holds
throughout the initial `compute_shortest_path` run, where `rhs` values
only decrease. -/
def NeverUnder {N W : Type} [DecidableEq N] [LE W] (ops : WeightOps W)
    (st : DStarLite N W) : Prop :=
  ∀ n : N, (score ops st n).rhs ≤ (score ops st n).g

/-- Every discovered node lies in the given finite node universe. -/
def DiscoveredIn {N W : Type} (st : DStarLite N W) (nodes : Finset N) : Prop :=
  ∀ e ∈ st.vertex_scores, e.1 ∈ nodes

/-- The finite set of edge costs the predecessor oracle can return over
the node universe. -/
def edgeCosts {N W : Type} [DecidableEq W] (fns : DStarLiteFns N W)
    (nodes : Finset N) : Finset W :=
  nodes.biUnion (fun n => ((fns.predecessors n).map (fun e => e.cost)).toFinset)

/-- The values expressible as a finite sum of costs drawn (with
multiplicity) from `C`: exactly the walk costs the algorithm can
generate from `rhs(goal) = 0` by repeated relaxation. -/
def ValsOf {W : Type} [AddCommMonoid W] (C : Finset W) : Set W :=
  { w | ∃ m : Multiset W, (∀ c ∈ m, c ∈ C) ∧ w = m.sum }

/-- Every `g` and `rhs` in the state is the sentinel or a walk cost. -/
def ScoresInVals {N W : Type} [DecidableEq N] [AddCommMonoid W]
    (ops : WeightOps W) (C : Finset W) (st : DStarLite N W) : Prop :=
  ∀ n : N, ((score ops st n).g = ops.maxv ∨ (score ops st n).g ∈ ValsOf C)
    ∧ ((score ops st n).rhs = ops.maxv ∨ (score ops st n).rhs ∈ ValsOf C)

/-- The invariant of the initial `compute_shortest_path` run: the queue
holds exactly the discovered inconsistent nodes with fresh keys, no
node is underconsistent, all discovered nodes lie in the finite node
universe and all scores are walk costs or the sentinel. -/
def RunInv {N W : Type} [DecidableEq N] [DecidableEq W] [LE W]
    [AddCommMonoid W] (ops : WeightOps W) (fns : DStarLiteFns N W)
    (nodes : Finset N) (st : DStarLite N W) : Prop :=
  QueueInv ops st ∧ KeysFresh ops fns st ∧ NeverUnder ops st
    ∧ DiscoveredIn st nodes ∧ ScoresInVals ops (edgeCosts fns nodes) st

/-- A trivial oracle over the extended naturals (used to instantiate
the termination theorem). -/
def enatTrivialFns : DStarLiteFns Nat (WithTop Nat) :=
  ⟨fun _ _ => 0, fun _ => [], fun _ => []⟩

/-- A trivial oracle over the two-valued weights (used to instantiate
the generic invariant theorem). -/
def trivialBoolFns : DStarLiteFns Nat Bool :=
  ⟨fun _ _ => false, fun _ => [], fun _ => []⟩

/-- The planner state `new(0, 1, ...)` converges to under the trivial
Bool-weight oracle: the goal was expanded (g := rhs = 0) and the queue
emptied. -/
def boolFinalState : DStarLite Nat Bool :=
  { start := 0, start_last := 0, goal := 1, queue := [], k_m := false,
    vertex_scores := [(1, ⟨false, false⟩)], updated_edge_costs := [] }

/-! # Theorems -/

/-- **C2**: on the 5×5 unit-cost maze with start `(0,0)` and goal
`(4,4)`, the planner built by `new` (whose initial
`compute_shortest_path` run terminates within 64 iterations) and
advanced by successive `try_next` calls returns exactly
`(0,1),(0,2),(1,2),(2,2),(2,1),(2,0),(3,0),(4,0),(4,1),(4,2),(4,3),(4,4)`
and then the arrived outcome `Ok(None)`. -/
theorem c2_maze_try_next_trace :
    (newDStarLite opsNat mazeFns (0, 0) (4, 4) 64).map
      (fun st => tryNextTrace opsNat mazeFns 13 st) =
    some [some (TryNextResult.ok (some (0, 1))),
      some (TryNextResult.ok (some (0, 2))),
      some (TryNextResult.ok (some (1, 2))),
      some (TryNextResult.ok (some (2, 2))),
      some (TryNextResult.ok (some (2, 1))),
      some (TryNextResult.ok (some (2, 0))),
      some (TryNextResult.ok (some (3, 0))),
      some (TryNextResult.ok (some (4, 0))),
      some (TryNextResult.ok (some (4, 1))),
      some (TryNextResult.ok (some (4, 2))),
      some (TryNextResult.ok (some (4, 3))),
      some (TryNextResult.ok (some (4, 4))),
      some (TryNextResult.ok none)] := by
  decide

/-- **C3** (code bug): the second iteration of the initial
`compute_shortest_path` run on the diamond graph A→B(1), B→G(10),
A→C(1), C→G(1) with the zero heuristic pops B under key `(10,10)` even
though C is queued with the strictly smaller key `(1,1)`: the
underlying `priority_queue::PriorityQueue` is a max-heap, so the loop
pops the maximum-key node, not the minimum-key node required by the
claim and by the D* Lite paper the module cites. -/
theorem c3_compute_pop_not_minimum :
    cspCond opsNat diamondFns diamondState1 = true
    ∧ qPop opsNat diamondState1.queue = some ((1, ⟨10, 10⟩), [(2, ⟨1, 1⟩)])
    ∧ (2, (⟨1, 1⟩ : Priority Nat)) ∈ diamondState1.queue
    ∧ prioCmp opsNat ⟨1, 1⟩ ⟨10, 10⟩ = Ordering.lt := by
  decide

/-- **C1** (code bug): on the two-route graph A→B(1), B→G(1), A→C(1),
C→G(4) with the zero heuristic, after buffering the decrease of edge
C→G to cost 3 and calling `update_from_updated_edges`, the planner is
not re-converged: `rhs(start)` remains 5 while the from-scratch
shortest-path cost on the mutated graph is 2 (via B), and `try_next`
still routes A→C→G (mutated cost 1 + 3 = 4).  The Rust
`update_from_updated_edges` never re-runs `compute_shortest_path`
(which is private and called only from `new`), so incremental and full
recomputation disagree. -/
theorem c1_update_from_updated_edges_diverges_from_scratch :
    twoRouteAfterUpdate.map (fun st => (score opsNat st 0).rhs) = some 5
    ∧ aFind? (refCosts (twoRouteFns 3) [0, 1, 2, 3] 3 4) 0 = some (some 2)
    ∧ twoRouteAfterUpdate.map (fun st => tryNextTrace opsNat (twoRouteFns 3) 2 st)
      = some [some (TryNextResult.ok (some 2)), some (TryNextResult.ok (some 3))] := by
  decide

/-- **C5** (code bug): clipping the segment from `(0,0,-5)` to
`(0,0,5)` against the AABB `(-1,-1,-1)-(1,1,1)` reports **no hit**,
although the segment passes straight through the box (its midpoint
`(0,0,0)` is contained): `clip_point` computes the orthogonal
coordinates as `(start + t) / delta` instead of `start + t * delta`,
which for this axis-aligned ray divides by zero and yields `+∞`,
failing the in-range check.  The claimed hit at `z = -1`, `t = 0.4`
(whose face label under the code's own convention would be North, not
South) is never produced. -/
theorem c5_axis_aligned_ray_clip_misses :
    AABB.clip c5box ⟨.fin 0, .fin 0, .fin (-5)⟩ ⟨.fin 0, .fin 0, .fin 5⟩ = none
    ∧ AABB.contains c5box (.fin 0) (.fin 0) (.fin 0) = true := by
  norm_num [AABB.clip, AABB.get_direction, AABB.clip_point, AABB.contains,
    FP.lt, FP.ble, FP.add, FP.sub, FP.neg, FP.mul, FP.div, EPSILON, c5box]

/-- **C6** (code bug): for the segment from `(1/2, 1/2, -1)` to
`(6/5, 1/2, 1)` against the unit box, the code reports no hit even
though the segment passes through the box's interior (the point at
parameter `t = 3/5` on the segment, `(23/25, 1/2, 1/5)`, is
contained): `get_direction` returns after examining only the first
axis whose motion component exceeds ε (here X, whose crossing has
`t < 0`), never considering the valid Z-face crossing, and
`clip_point`'s in-range check uses `(start + t)/delta` rather than the
ray evaluated at `t`. -/
theorem c6_clip_single_axis_early_return_misses :
    AABB.clip unitBox ⟨.fin (1/2), .fin (1/2), .fin (-1)⟩
      ⟨.fin (6/5), .fin (1/2), .fin 1⟩ = none
    ∧ Vec3.add ⟨.fin (1/2), .fin (1/2), .fin (-1)⟩
        (FP.mul (.fin (3/5)) (.fin (7/10))) (FP.mul (.fin (3/5)) (.fin 0))
        (FP.mul (.fin (3/5)) (.fin 2))
      = ⟨.fin (23/25), .fin (1/2), .fin (1/5)⟩
    ∧ AABB.contains unitBox (.fin (23/25)) (.fin (1/2)) (.fin (1/5)) = true := by
  norm_num [AABB.clip, AABB.get_direction, AABB.clip_point, AABB.contains,
    Vec3.add, FP.lt, FP.ble, FP.add, FP.sub, FP.neg, FP.mul, FP.div, EPSILON,
    unitBox]

/-- **C8**: whenever `start ≠ goal` and `rhs(start)` is the infinity
sentinel, `try_next` returns the no-path error and the planner state
is returned unchanged (in particular `start` is not mutated). -/
theorem c8_try_next_no_path {N W : Type} [DecidableEq N] [DecidableEq W]
    (ops : WeightOps W) (fns : DStarLiteFns N W) (st : DStarLite N W)
    (hne : st.start ≠ st.goal)
    (hrhs : (score ops st st.start).rhs = ops.maxv) :
    try_next ops fns st = some (TryNextResult.errNoPath, st) := by
  simp [try_next, hne, hrhs]

/-- Witness for C8 at a concrete planner state. -/
theorem c8_try_next_no_path_witness :
    (0 : Nat) ≠ 1
    ∧ (score opsNat undiscoveredStartState 0).rhs = opsNat.maxv
    ∧ try_next opsNat diamondFns undiscoveredStartState
      = some (TryNextResult.errNoPath, undiscoveredStartState) :=
  ⟨by decide, by decide,
    c8_try_next_no_path opsNat diamondFns undiscoveredStartState
      (by decide) (by decide)⟩

/-- **C10**: `calculate_key` returns exactly `(∞, ∞)` when
`min(g, rhs)` is the infinity sentinel — the heuristic and `k_m` terms
are not added to the sentinel — and otherwise returns
`(min(g,rhs) + heuristic(start, node) + k_m, min(g,rhs))`. -/
theorem c10_calculate_key_sentinel {N W : Type} [DecidableEq N]
    [DecidableEq W] (ops : WeightOps W) (fns : DStarLiteFns N W)
    (st : DStarLite N W) (n : N) :
    ((if ops.lt (score ops st n).g (score ops st n).rhs
        then (score ops st n).g else (score ops st n).rhs) = ops.maxv →
      calculate_key ops fns st n = ⟨ops.maxv, ops.maxv⟩)
    ∧ ((if ops.lt (score ops st n).g (score ops st n).rhs
        then (score ops st n).g else (score ops st n).rhs) ≠ ops.maxv →
      calculate_key ops fns st n =
        ⟨ops.add (ops.add
            (if ops.lt (score ops st n).g (score ops st n).rhs
              then (score ops st n).g else (score ops st n).rhs)
            (fns.heuristic st.start n)) st.k_m,
          if ops.lt (score ops st n).g (score ops st n).rhs
            then (score ops st n).g else (score ops st n).rhs⟩) := by
  constructor
  · intro h
    simp [calculate_key, h]
  · intro h
    simp [calculate_key, h]

/-- Witness for C10: an undiscovered node has `min(g,rhs) = ∞` and key
`(∞, ∞)`; a node with score `(5, 7)` and `k_m = 2` under the zero
heuristic has key `(5 + 0 + 2, 5) = (7, 5)`. -/
theorem c10_calculate_key_sentinel_witness :
    ((if opsNat.lt (score opsNat undiscoveredStartState 0).g
        (score opsNat undiscoveredStartState 0).rhs
      then (score opsNat undiscoveredStartState 0).g
      else (score opsNat undiscoveredStartState 0).rhs) = opsNat.maxv)
    ∧ calculate_key opsNat diamondFns undiscoveredStartState 0
      = ⟨opsNat.maxv, opsNat.maxv⟩
    ∧ ((if opsNat.lt (score opsNat finiteStartState 0).g
        (score opsNat finiteStartState 0).rhs
      then (score opsNat finiteStartState 0).g
      else (score opsNat finiteStartState 0).rhs) ≠ opsNat.maxv)
    ∧ calculate_key opsNat diamondFns finiteStartState 0 = ⟨7, 5⟩ :=
  ⟨by decide,
    (c10_calculate_key_sentinel opsNat diamondFns undiscoveredStartState 0).1
      (by decide),
    by decide,
    (c10_calculate_key_sentinel opsNat diamondFns finiteStartState 0).2
      (by decide)⟩

/-- **C9**: `contains` is half-open on every axis: with the other two
coordinates inside the box's ranges, a coordinate exactly equal to the
`min_*` bound yields `true` and a coordinate exactly equal to the
`max_*` bound yields `false` (stated for finite coordinates, the only
values IEEE equality-to-a-bound is meaningful for). -/
theorem c9_contains_half_open_boundary
    (mnx mny mnz mxx mxy mxz x y z : ℚ)
    (hx1 : mnx ≤ x) (hx2 : x < mxx) (hy1 : mny ≤ y) (hy2 : y < mxy)
    (hz1 : mnz ≤ z) (hz2 : z < mxz) :
    (AABB.contains ⟨.fin mnx, .fin mny, .fin mnz, .fin mxx, .fin mxy, .fin mxz⟩
        (.fin mnx) (.fin y) (.fin z) = true
      ∧ AABB.contains ⟨.fin mnx, .fin mny, .fin mnz, .fin mxx, .fin mxy, .fin mxz⟩
        (.fin mxx) (.fin y) (.fin z) = false)
    ∧ (AABB.contains ⟨.fin mnx, .fin mny, .fin mnz, .fin mxx, .fin mxy, .fin mxz⟩
        (.fin x) (.fin mny) (.fin z) = true
      ∧ AABB.contains ⟨.fin mnx, .fin mny, .fin mnz, .fin mxx, .fin mxy, .fin mxz⟩
        (.fin x) (.fin mxy) (.fin z) = false)
    ∧ (AABB.contains ⟨.fin mnx, .fin mny, .fin mnz, .fin mxx, .fin mxy, .fin mxz⟩
        (.fin x) (.fin y) (.fin mnz) = true
      ∧ AABB.contains ⟨.fin mnx, .fin mny, .fin mnz, .fin mxx, .fin mxy, .fin mxz⟩
        (.fin x) (.fin y) (.fin mxz) = false) := by
  refine ⟨⟨?_, ?_⟩, ⟨?_, ?_⟩, ⟨?_, ?_⟩⟩
  · simp [AABB.contains, FP.ble, FP.lt]
    repeat' apply And.intro
    all_goals linarith
  · simp [AABB.contains, FP.ble, FP.lt, lt_self_iff_false]
  · simp [AABB.contains, FP.ble, FP.lt]
    repeat' apply And.intro
    all_goals linarith
  · simp [AABB.contains, FP.ble, FP.lt, lt_self_iff_false]
  · simp [AABB.contains, FP.ble, FP.lt]
    repeat' apply And.intro
    all_goals linarith
  · simp [AABB.contains, FP.ble, FP.lt, lt_self_iff_false]

/-- Witness for C9 on the unit box with interior point `(0, 0, 0)`
(equal to every `min_*` bound). -/
theorem c9_contains_half_open_boundary_witness :
    (0 : ℚ) ≤ 0 ∧ (0 : ℚ) < 1
    ∧ ((AABB.contains unitBox (.fin 0) (.fin 0) (.fin 0) = true
        ∧ AABB.contains unitBox (.fin 1) (.fin 0) (.fin 0) = false)
      ∧ (AABB.contains unitBox (.fin 0) (.fin 0) (.fin 0) = true
        ∧ AABB.contains unitBox (.fin 0) (.fin 1) (.fin 0) = false)
      ∧ (AABB.contains unitBox (.fin 0) (.fin 0) (.fin 0) = true
        ∧ AABB.contains unitBox (.fin 0) (.fin 0) (.fin 1) = false)) :=
  ⟨le_refl 0, zero_lt_one,
    c9_contains_half_open_boundary 0 0 0 1 1 1 0 0 0
      (le_refl 0) zero_lt_one (le_refl 0) zero_lt_one (le_refl 0) zero_lt_one⟩

/-! ## Association-list and queue lemmas (infrastructure for C4) -/

theorem aFind?_some_mem {N α : Type} [DecidableEq N] {m : List (N × α)}
    {k : N} {v : α} (h : aFind? m k = some v) : (k, v) ∈ m := by
  induction m with
  | nil => simp [aFind?] at h
  | cons e t ih =>
    obtain ⟨a, b⟩ := e
    by_cases he : a = k
    · subst he
      simp [aFind?] at h
      subst h
      exact List.mem_cons_self _ _
    · simp [aFind?, he] at h
      exact List.mem_cons_of_mem _ (ih h)

theorem mem_aFind?_isSome {N α : Type} [DecidableEq N] {m : List (N × α)}
    {e : N × α} (h : e ∈ m) : (aFind? m e.1).isSome := by
  induction m with
  | nil => simp at h
  | cons x t ih =>
    rcases List.mem_cons.mp h with h | h
    · subst h
      simp [aFind?]
    · by_cases hx : x.1 = e.1 <;> simp [aFind?, hx, ih h]

theorem aFind?_append_of_none {N α : Type} [DecidableEq N]
    {l1 l2 : List (N × α)} {k : N} (h : aFind? l1 k = none) :
    aFind? (l1 ++ l2) k = aFind? l2 k := by
  induction l1 with
  | nil => simp
  | cons e t ih =>
    by_cases he : e.1 = k
    · simp [aFind?, he] at h
    · simp [aFind?, he] at h ⊢
      exact ih h

theorem aFind?_append_of_some {N α : Type} [DecidableEq N]
    {l1 l2 : List (N × α)} {k : N} {v : α} (h : aFind? l1 k = some v) :
    aFind? (l1 ++ l2) k = some v := by
  induction l1 with
  | nil => simp [aFind?] at h
  | cons e t ih =>
    by_cases he : e.1 = k
    · simp [aFind?, he] at h ⊢
      exact h
    · simp [aFind?, he] at h ⊢
      exact ih h

theorem aFind?_aSet_self {N α : Type} [DecidableEq N] (m : List (N × α))
    (n : N) (v : α) : aFind? (aSet m n v) n = some v := by
  induction m with
  | nil => simp [aSet, aFind?]
  | cons e t ih =>
    by_cases he : e.1 = n <;> simp [aSet, aFind?, he, ih]

theorem aFind?_aSet_ne {N α : Type} [DecidableEq N] (m : List (N × α))
    (n : N) (v : α) {k : N} (h : k ≠ n) :
    aFind? (aSet m n v) k = aFind? m k := by
  have hnk : ¬ n = k := fun hh => h hh.symm
  induction m with
  | nil => simp [aSet, aFind?, hnk]
  | cons e t ih =>
    by_cases he : e.1 = n
    · have hek : ¬ e.1 = k := fun hh => hnk (he ▸ hh)
      simp [aSet, aFind?, he, hnk, hek]
    · by_cases hk : e.1 = k <;> simp [aSet, aFind?, he, hk, ih, hnk, h]

theorem mem_aSet {N α : Type} [DecidableEq N] {m : List (N × α)}
    {n : N} {v : α} {e : N × α} (h : e ∈ aSet m n v) :
    e = (n, v) ∨ e ∈ m := by
  induction m with
  | nil => simpa [aSet] using h
  | cons x t ih =>
    by_cases hx : x.1 = n
    · rcases List.mem_cons.mp (by simpa [aSet, hx] using h) with h | h
      · exact Or.inl h
      · exact Or.inr (List.mem_cons_of_mem _ h)
    · rcases List.mem_cons.mp (by simpa [aSet, hx] using h) with h | h
      · exact Or.inr (by simp [h])
      · rcases ih h with h | h
        · exact Or.inl h
        · exact Or.inr (List.mem_cons_of_mem _ h)

theorem aFind?_sEnsure_ne {N W : Type} [DecidableEq N] (ops : WeightOps W)
    (m : List (N × VertexScore W)) (n : N) {k : N} (h : k ≠ n) :
    aFind? (sEnsure ops m n) k = aFind? m k := by
  have hnk : ¬ n = k := fun hh => h hh.symm
  unfold sEnsure
  cases hf : aFind? m n with
  | some v => rfl
  | none =>
    cases hk : aFind? m k with
    | some v => exact aFind?_append_of_some hk
    | none =>
      rw [aFind?_append_of_none hk]
      simp [aFind?, hnk, hk]

theorem aFind?_sEnsure_getD {N W : Type} [DecidableEq N] (ops : WeightOps W)
    (m : List (N × VertexScore W)) (n k : N) :
    (aFind? (sEnsure ops m n) k).getD (defaultScore ops)
      = (aFind? m k).getD (defaultScore ops) := by
  by_cases hk : k = n
  · subst hk
    unfold sEnsure
    cases hf : aFind? m k with
    | some v => simp [hf]
    | none =>
      rw [aFind?_append_of_none hf]
      simp [aFind?, hf]
  · rw [aFind?_sEnsure_ne ops m n hk]

theorem mem_sEnsure {N W : Type} [DecidableEq N] {ops : WeightOps W}
    {m : List (N × VertexScore W)} {n : N} {e : N × VertexScore W}
    (h : e ∈ sEnsure ops m n) : e ∈ m ∨ e = (n, defaultScore ops) := by
  unfold sEnsure at h
  cases hf : aFind? m n with
  | some v =>
    rw [hf] at h
    exact Or.inl h
  | none =>
    rw [hf] at h
    rcases List.mem_append.mp h with h | h
    · exact Or.inl h
    · exact Or.inr (by simpa using h)

theorem qGet_isSome_of_mem {N W : Type} [DecidableEq N]
    {q : List (N × Priority W)} {e : N × Priority W} (h : e ∈ q) :
    (qGet q e.1).isSome :=
  mem_aFind?_isSome h

theorem mem_qChangePriority {N W : Type} [DecidableEq N]
    {q : List (N × Priority W)} {n : N} {p : Priority W}
    {e : N × Priority W} (h : e ∈ qChangePriority q n p) :
    e = (n, p) ∨ (e ∈ q ∧ e.1 ≠ n) := by
  unfold qChangePriority at h
  rcases List.mem_map.mp h with ⟨x, hx, hfx⟩
  by_cases hxn : x.1 = n
  · rw [if_pos hxn] at hfx
    exact Or.inl hfx.symm
  · rw [if_neg hxn] at hfx
    subst hfx
    exact Or.inr ⟨hx, hxn⟩

theorem qGet_qChangePriority_isSome {N W : Type} [DecidableEq N]
    (q : List (N × Priority W)) (n : N) (p : Priority W) (k : N) :
    (qGet (qChangePriority q n p) k).isSome = (qGet q k).isSome := by
  induction q with
  | nil => rfl
  | cons e t ih =>
    simp only [qGet, qChangePriority, aFind?, List.map_cons] at ih ⊢
    by_cases he : e.1 = n
    · by_cases hk : n = k
      · have : e.1 = k := he ▸ hk
        simp [he, hk, this]
      · have : ¬ e.1 = k := fun hh => hk (he ▸ hh)
        simp [he, hk, this, ih]
    · by_cases hk : e.1 = k
      · have hkn : ¬ k = n := fun hh => he (hk ▸ hh ▸ rfl)
        simp [he, hk, hkn]
      · simp [he, hk, ih]

theorem mem_qPush {N W : Type} {q : List (N × Priority W)} {n : N}
    {p : Priority W} {e : N × Priority W} :
    e ∈ qPush q n p ↔ e ∈ q ∨ e = (n, p) := by
  simp [qPush]

theorem qGet_qPush_isSome_of {N W : Type} [DecidableEq N]
    {q : List (N × Priority W)} {n : N} {p : Priority W} {k : N}
    (h : (qGet q k).isSome) : (qGet (qPush q n p) k).isSome := by
  unfold qGet at h ⊢
  cases hf : aFind? q k with
  | some v => simp [qPush, aFind?_append_of_some hf]
  | none => rw [hf] at h; simp at h

theorem qGet_qPush_self_isSome {N W : Type} [DecidableEq N]
    (q : List (N × Priority W)) (n : N) (p : Priority W) :
    (qGet (qPush q n p) n).isSome := by
  unfold qGet qPush
  cases hf : aFind? q n with
  | some v => simp [aFind?_append_of_some hf]
  | none => rw [aFind?_append_of_none hf]; simp [aFind?]

theorem mem_qRemove {N W : Type} [DecidableEq N]
    {q : List (N × Priority W)} {n : N} {e : N × Priority W} :
    e ∈ qRemove q n ↔ e ∈ q ∧ e.1 ≠ n := by
  simp [qRemove, List.mem_filter]

theorem qGet_qRemove_ne {N W : Type} [DecidableEq N]
    (q : List (N × Priority W)) (n : N) {k : N} (h : k ≠ n) :
    qGet (qRemove q n) k = qGet q k := by
  induction q with
  | nil => rfl
  | cons e t ih =>
    have hnk : ¬ n = k := fun hh => h hh.symm
    simp only [qGet, qRemove, aFind?, List.filter_cons, ne_eq, decide_not] at ih ⊢
    by_cases he : e.1 = n
    · have : ¬ e.1 = k := fun hh => hnk (he ▸ hh)
      simp [he, this, ih, hnk]
    · by_cases hk : e.1 = k
      · simp [he, hk, hnk, h, aFind?]
      · simp [he, hk, ih, aFind?]

theorem qPop_mem {N W : Type} {ops : WeightOps W}
    {q rest : List (N × Priority W)} {e : N × Priority W}
    (h : qPop ops q = some (e, rest)) : e ∈ q := by
  induction q generalizing e rest with
  | nil => simp [qPop] at h
  | cons x t ih =>
    unfold qPop at h
    cases hp : qPop ops t with
    | none =>
      rw [hp] at h
      simp at h
      simp [h.1]
    | some br =>
      obtain ⟨b, rest'⟩ := br
      rw [hp] at h
      by_cases hgt : prioCmp ops b.2 x.2 = Ordering.gt
      · simp [hgt] at h
        exact List.mem_cons_of_mem _ (ih (h.1 ▸ hp))
      · simp [hgt] at h
        simp [h.1]

theorem qPop_rest_mem {N W : Type} {ops : WeightOps W}
    {q rest : List (N × Priority W)} {e x : N × Priority W}
    (h : qPop ops q = some (e, rest)) (hx : x ∈ rest) : x ∈ q := by
  induction q generalizing e rest with
  | nil => simp [qPop] at h
  | cons y t ih =>
    unfold qPop at h
    cases hp : qPop ops t with
    | none =>
      rw [hp] at h
      simp at h
      exact List.mem_cons_of_mem _ (h.2 ▸ hx)
    | some br =>
      obtain ⟨b, rest'⟩ := br
      rw [hp] at h
      by_cases hgt : prioCmp ops b.2 y.2 = Ordering.gt
      · simp [hgt] at h
        rw [← h.2] at hx
        rcases List.mem_cons.mp hx with hx | hx
        · simp [hx]
        · exact List.mem_cons_of_mem _ (ih (h.1 ▸ hp) hx)
      · simp [hgt] at h
        exact List.mem_cons_of_mem _ (h.2 ▸ hx)

theorem qPop_qGet_ne {N W : Type} {ops : WeightOps W} [DecidableEq N]
    {q rest : List (N × Priority W)} {e : N × Priority W}
    (h : qPop ops q = some (e, rest)) {k : N} (hk : k ≠ e.1) :
    qGet rest k = qGet q k := by
  induction q generalizing e rest with
  | nil => simp [qPop] at h
  | cons y t ih =>
    unfold qPop at h
    cases hp : qPop ops t with
    | none =>
      rw [hp] at h
      simp at h
      have hyk : ¬ y.1 = k := fun hh => hk ((h.1 ▸ hh : e.1 = k).symm)
      simp [← h.2, qGet, aFind?, hyk]
    | some br =>
      obtain ⟨b, rest'⟩ := br
      rw [hp] at h
      by_cases hgt : prioCmp ops b.2 y.2 = Ordering.gt
      · simp [hgt] at h
        rw [← h.2]
        by_cases hy : y.1 = k
        · simp [qGet, aFind?, hy]
        · simp only [qGet, aFind?, hy, if_false]
          exact ih (h.1 ▸ hp) hk
      · simp [hgt] at h
        have hyk : ¬ y.1 = k := fun hh => hk ((h.1 ▸ hh : e.1 = k).symm)
        simp [← h.2, qGet, aFind?, hyk]

/-! ## Invariant-preservation lemmas for `update_vertex` -/

theorem inconsistent_discovered {N W : Type} [DecidableEq N]
    {ops : WeightOps W} {st : DStarLite N W} {n : N}
    (h : Inconsistent ops st n) : (aFind? st.vertex_scores n).isSome := by
  cases hf : aFind? st.vertex_scores n with
  | some v => rfl
  | none =>
    exfalso
    unfold Inconsistent score at h
    rw [hf] at h
    exact h rfl

theorem score_mutate {N W : Type} [DecidableEq N] (ops : WeightOps W)
    (st : DStarLite N W) (m' : List (N × VertexScore W)) {n : N}
    (hm : aFind? m' n = aFind? st.vertex_scores n) :
    score ops { st with vertex_scores := m' } n = score ops st n := by
  simp [score, hm]

theorem calculate_key_mutate {N W : Type} [DecidableEq N] [DecidableEq W]
    (ops : WeightOps W) (fns : DStarLiteFns N W) {st : DStarLite N W}
    {m' : List (N × VertexScore W)} {n : N}
    (hsc : score ops { st with vertex_scores := m' } n = score ops st n) :
    calculate_key ops fns { st with vertex_scores := m' } n
      = calculate_key ops fns st n := by
  simp [calculate_key, hsc]

theorem invq_mono {N W : Type} [DecidableEq N] {ops : WeightOps W}
    {st : DStarLite N W} {P Q : N → Prop} (h12 : ∀ n, P n → Q n)
    (h : QueueInvExcept ops st P) : QueueInvExcept ops st Q :=
  ⟨fun e he hQ => h.1 e he (fun hp => hQ (h12 _ hp)),
   fun e he hQ hi => h.2 e he (fun hp => hQ (h12 _ hp)) hi⟩

theorem keys_mono {N W : Type} [DecidableEq N] [DecidableEq W]
    {ops : WeightOps W} {fns : DStarLiteFns N W} {st : DStarLite N W}
    {P Q : N → Prop} (h12 : ∀ n, P n → Q n)
    (h : KeysFreshExcept ops fns st P) : KeysFreshExcept ops fns st Q :=
  fun e he hQ => h e he (fun hp => hQ (h12 _ hp))

theorem invq_false_iff {N W : Type} [DecidableEq N] {ops : WeightOps W}
    {st : DStarLite N W} :
    QueueInvExcept ops st (fun _ => False) ↔ QueueInv ops st := by
  simp [QueueInvExcept, QueueInv]

theorem keys_false_iff {N W : Type} [DecidableEq N] [DecidableEq W]
    {ops : WeightOps W} {fns : DStarLiteFns N W} {st : DStarLite N W} :
    KeysFreshExcept ops fns st (fun _ => False) ↔ KeysFresh ops fns st := by
  simp [KeysFreshExcept, KeysFresh]

theorem update_vertex_invq {N W : Type} [DecidableEq N] [DecidableEq W]
    (ops : WeightOps W) (fns : DStarLiteFns N W) (st : DStarLite N W)
    (s : N) (P : N → Prop)
    (hq : QueueInvExcept ops st (fun n => n = s ∨ P n)) :
    QueueInvExcept ops (update_vertex ops fns st s) P := by
  simp only [update_vertex]
  split_ifs with h1 h2 h3
  · constructor
    · intro e he hP
      rcases mem_qChangePriority he with he | ⟨he, hne⟩
      · subst he
        exact ⟨inconsistent_discovered h1.1, h1.1⟩
      · exact hq.1 e he (fun hc => hc.elim hne hP)
    · intro e he hP hinc
      rw [qGet_qChangePriority_isSome]
      by_cases hes : e.1 = s
      · rw [hes]
        exact h1.2
      · exact hq.2 e he (fun hc => hc.elim hes hP) hinc
  · constructor
    · intro e he hP
      rcases mem_qPush.mp he with he | he
      · by_cases hes : e.1 = s
        · exfalso
          have hs := qGet_isSome_of_mem he
          rw [hes] at hs
          rw [Option.isNone_iff_eq_none.mp h2.2] at hs
          simp at hs
        · exact hq.1 e he (fun hc => hc.elim hes hP)
      · subst he
        exact ⟨inconsistent_discovered h2.1, h2.1⟩
    · intro e he hP hinc
      by_cases hes : e.1 = s
      · rw [hes]
        exact qGet_qPush_self_isSome _ _ _
      · exact qGet_qPush_isSome_of (hq.2 e he (fun hc => hc.elim hes hP) hinc)
  · constructor
    · intro e he hP
      rcases mem_qRemove.mp he with ⟨he, hne⟩
      exact hq.1 e he (fun hc => hc.elim hne hP)
    · intro e he hP hinc
      by_cases hes : e.1 = s
      · exact absurd h3.1 (hes ▸ hinc)
      · rw [qGet_qRemove_ne _ _ hes]
        exact hq.2 e he (fun hc => hc.elim hes hP) hinc
  · have hcons : ¬ Inconsistent ops st s := by
      intro hinc
      by_cases hqs : (qGet st.queue s).isSome
      · exact h1 ⟨hinc, hqs⟩
      · refine h2 ⟨hinc, ?_⟩
        rw [Option.not_isSome_iff_eq_none] at hqs
        rw [hqs]
        rfl
    constructor
    · intro e he hP
      by_cases hes : e.1 = s
      · exfalso
        have hs := qGet_isSome_of_mem he
        rw [hes] at hs
        exact h3 ⟨not_not.mp hcons, hs⟩
      · exact hq.1 e he (fun hc => hc.elim hes hP)
    · intro e he hP hinc
      by_cases hes : e.1 = s
      · exact absurd (hes ▸ hinc) hcons
      · exact hq.2 e he (fun hc => hc.elim hes hP) hinc

theorem score_update_vertex {N W : Type} [DecidableEq N] [DecidableEq W]
    (ops : WeightOps W) (fns : DStarLiteFns N W) (st : DStarLite N W)
    (s n : N) : score ops (update_vertex ops fns st s) n = score ops st n := by
  simp only [update_vertex]
  split_ifs <;> rfl

theorem calculate_key_update_vertex {N W : Type} [DecidableEq N]
    [DecidableEq W] (ops : WeightOps W) (fns : DStarLiteFns N W)
    (st : DStarLite N W) (s n : N) :
    calculate_key ops fns (update_vertex ops fns st s) n
      = calculate_key ops fns st n := by
  simp only [update_vertex]
  split_ifs <;> rfl

theorem update_vertex_queue_mem {N W : Type} [DecidableEq N] [DecidableEq W]
    {ops : WeightOps W} {fns : DStarLiteFns N W} {st : DStarLite N W}
    {s : N} {e : N × Priority W}
    (h : e ∈ (update_vertex ops fns st s).queue) :
    e.1 = s ∨ e ∈ st.queue := by
  revert h
  simp only [update_vertex]
  split_ifs with h1 h2 h3
  · intro h
    rcases mem_qChangePriority h with h | ⟨h, _⟩
    · subst h
      exact Or.inl rfl
    · exact Or.inr h
  · intro h
    rcases mem_qPush.mp h with h | h
    · exact Or.inr h
    · subst h
      exact Or.inl rfl
  · intro h
    exact Or.inr (mem_qRemove.mp h).1
  · exact Or.inr

theorem update_vertex_keys {N W : Type} [DecidableEq N] [DecidableEq W]
    (ops : WeightOps W) (fns : DStarLiteFns N W) (st : DStarLite N W)
    (s : N) (P : N → Prop)
    (hk : KeysFreshExcept ops fns st (fun n => n = s ∨ P n)) :
    KeysFreshExcept ops fns (update_vertex ops fns st s) P := by
  simp only [update_vertex]
  split_ifs with h1 h2 h3
  all_goals intro e he hP
  · rcases mem_qChangePriority he with he | ⟨he, hne⟩
    · subst he
      rfl
    · exact hk e he (fun hc => hc.elim hne hP)
  · rcases mem_qPush.mp he with he | he
    · by_cases hes : e.1 = s
      · exfalso
        have hs := qGet_isSome_of_mem he
        rw [hes] at hs
        rw [Option.isNone_iff_eq_none.mp h2.2] at hs
        simp at hs
      · exact hk e he (fun hc => hc.elim hes hP)
    · subst he
      rfl
  · rcases mem_qRemove.mp he with ⟨he, hne⟩
    exact hk e he (fun hc => hc.elim hne hP)
  · exact hk e he (fun hc =>
      hc.elim (fun hes => by
        have hs := qGet_isSome_of_mem he
        rw [hes] at hs
        have hcons : ¬ Inconsistent ops st s := by
          intro hinc
          by_cases hqs : (qGet st.queue s).isSome
          · exact h1 ⟨hinc, hqs⟩
          · refine h2 ⟨hinc, ?_⟩
            rw [Option.not_isSome_iff_eq_none] at hqs
            rw [hqs]
            rfl
        exact h3 ⟨not_not.mp hcons, hs⟩) hP)

theorem invq_mutate {N W : Type} [DecidableEq N] (ops : WeightOps W)
    {st : DStarLite N W} (m' : List (N × VertexScore W)) (s : N)
    {P : N → Prop}
    (hm : ∀ k, k ≠ s → aFind? m' k = aFind? st.vertex_scores k)
    (hq : QueueInvExcept ops st P) :
    QueueInvExcept ops { st with vertex_scores := m' } (fun n => n = s ∨ P n) := by
  constructor
  · intro e he hP
    rw [not_or] at hP
    have h0 := hq.1 e he hP.2
    have hsc := score_mutate ops st m' (hm e.1 hP.1)
    constructor
    · show (aFind? m' e.1).isSome
      rw [hm e.1 hP.1]
      exact h0.1
    · show Inconsistent ops { st with vertex_scores := m' } e.1
      unfold Inconsistent
      rw [hsc]
      exact h0.2
  · intro e he hP hinc
    rw [not_or] at hP
    have hsome : (aFind? m' e.1).isSome := mem_aFind?_isSome he
    rw [hm e.1 hP.1] at hsome
    obtain ⟨v, hv⟩ := Option.isSome_iff_exists.mp hsome
    have hmem := aFind?_some_mem hv
    have hsc := score_mutate ops st m' (hm e.1 hP.1)
    have hinc' : Inconsistent ops st e.1 := by
      unfold Inconsistent at hinc ⊢
      rw [hsc] at hinc
      exact hinc
    exact hq.2 (e.1, v) hmem hP.2 hinc'

theorem keys_mutate {N W : Type} [DecidableEq N] [DecidableEq W]
    (ops : WeightOps W) (fns : DStarLiteFns N W) {st : DStarLite N W}
    (m' : List (N × VertexScore W)) (s : N) {P : N → Prop}
    (hm : ∀ k, k ≠ s → aFind? m' k = aFind? st.vertex_scores k)
    (hk : KeysFreshExcept ops fns st P) :
    KeysFreshExcept ops fns { st with vertex_scores := m' }
      (fun n => n = s ∨ P n) := by
  intro e he hP
  rw [not_or] at hP
  have hsc := score_mutate ops st m' (hm e.1 hP.1)
  rw [calculate_key_mutate ops fns hsc]
  exact hk e he hP.2

theorem invq_singleton_toFull {N W : Type} [DecidableEq N]
    {ops : WeightOps W} {st : DStarLite N W} {u : N}
    (hq : QueueInvExcept ops st (fun n => n = u))
    (hno : ∀ e ∈ st.queue, e.1 ≠ u) (hcons : ¬ Inconsistent ops st u) :
    QueueInv ops st := by
  constructor
  · intro e he
    exact hq.1 e he (hno e he)
  · intro e he hinc
    by_cases hes : e.1 = u
    · exact absurd (hes ▸ hinc) hcons
    · exact hq.2 e he hes hinc

theorem keys_singleton_toFull {N W : Type} [DecidableEq N] [DecidableEq W]
    {ops : WeightOps W} {fns : DStarLiteFns N W} {st : DStarLite N W} {u : N}
    (hk : KeysFreshExcept ops fns st (fun n => n = u))
    (hno : ∀ e ∈ st.queue, e.1 ≠ u) : KeysFresh ops fns st :=
  fun e he => hk e he (hno e he)

theorem cspRelaxBody_invq {N W : Type} [DecidableEq N] [DecidableEq W]
    (ops : WeightOps W) (fns : DStarLiteFns N W) (g_u : W)
    (st : DStarLite N W) (e : EdgeTo N W) (P : N → Prop)
    (hq : QueueInvExcept ops st (fun n => n = e.target ∨ P n)) :
    QueueInvExcept ops (cspRelaxBody ops fns g_u st e) P := by
  simp only [cspRelaxBody]
  apply update_vertex_invq
  have h1 := invq_mono (Q := fun n => n = e.target ∨ (n = e.target ∨ P n))
    (fun n h => Or.inr h) hq
  have h2 := invq_mutate ops (sEnsure ops st.vertex_scores e.target) e.target
    (fun k hk => aFind?_sEnsure_ne ops _ _ hk) hq
  have h2' := invq_mono (Q := fun n => n = e.target ∨ P n)
    (fun n h => h.elim Or.inl id) h2
  split_ifs with hc
  · have h3 := invq_mutate ops
      (aSet (sEnsure ops st.vertex_scores e.target) e.target
        ⟨(score ops { st with vertex_scores := sEnsure ops st.vertex_scores e.target } e.target).g,
         ops.add e.cost g_u⟩) e.target
      (fun k hk => aFind?_aSet_ne _ _ _ hk) h2'
    exact invq_mono (fun n h => h.elim Or.inl id) h3
  · exact h2'

theorem cspRelaxBody_keys {N W : Type} [DecidableEq N] [DecidableEq W]
    (ops : WeightOps W) (fns : DStarLiteFns N W) (g_u : W)
    (st : DStarLite N W) (e : EdgeTo N W) (P : N → Prop)
    (hk : KeysFreshExcept ops fns st (fun n => n = e.target ∨ P n)) :
    KeysFreshExcept ops fns (cspRelaxBody ops fns g_u st e) P := by
  simp only [cspRelaxBody]
  apply update_vertex_keys
  have h2 := keys_mutate ops fns (sEnsure ops st.vertex_scores e.target) e.target
    (fun k hk => aFind?_sEnsure_ne ops _ _ hk) hk
  have h2' := keys_mono (Q := fun n => n = e.target ∨ P n)
    (fun n h => h.elim Or.inl id) h2
  split_ifs with hc
  · have h3 := keys_mutate ops fns
      (aSet (sEnsure ops st.vertex_scores e.target) e.target
        ⟨(score ops { st with vertex_scores := sEnsure ops st.vertex_scores e.target } e.target).g,
         ops.add e.cost g_u⟩) e.target
      (fun k hk => aFind?_aSet_ne _ _ _ hk) h2'
    exact keys_mono (fun n h => h.elim Or.inl id) h3
  · exact h2'

theorem cspRelaxBody_score_ne {N W : Type} [DecidableEq N] [DecidableEq W]
    (ops : WeightOps W) (fns : DStarLiteFns N W) (g_u : W)
    (st : DStarLite N W) (e : EdgeTo N W) {u : N} (hne : e.target ≠ u) :
    score ops (cspRelaxBody ops fns g_u st e) u = score ops st u := by
  have hnu : u ≠ e.target := fun h => hne h.symm
  simp only [cspRelaxBody]
  rw [score_update_vertex]
  split_ifs with hc
  · show (aFind? (aSet _ _ _) u).getD _ = _
    rw [aFind?_aSet_ne _ _ _ hnu, aFind?_sEnsure_ne ops _ _ hnu]
    rfl
  · show (aFind? (sEnsure ops _ _) u).getD _ = _
    rw [aFind?_sEnsure_ne ops _ _ hnu]
    rfl

theorem cspRelaxBody_no_u {N W : Type} [DecidableEq N] [DecidableEq W]
    (ops : WeightOps W) (fns : DStarLiteFns N W) (g_u : W)
    (st : DStarLite N W) (e : EdgeTo N W) {u : N} (hne : e.target ≠ u)
    (hno : ∀ x ∈ st.queue, x.1 ≠ u) :
    ∀ x ∈ (cspRelaxBody ops fns g_u st e).queue, x.1 ≠ u := by
  intro x hx
  simp only [cspRelaxBody] at hx
  rcases update_vertex_queue_mem hx with hx1 | hx1
  · rw [hx1]
    exact hne
  · split_ifs at hx1 <;> exact hno x hx1

theorem cspRederiveBody_invq {N W : Type} [DecidableEq N] [DecidableEq W]
    (ops : WeightOps W) (fns : DStarLiteFns N W) (g_old : W)
    (st : DStarLite N W) (e : EdgeTo N W) (P : N → Prop)
    (hq : QueueInvExcept ops st (fun n => n = e.target ∨ P n)) :
    QueueInvExcept ops (cspRederiveBody ops fns g_old st e) P := by
  simp only [cspRederiveBody]
  apply update_vertex_invq
  split_ifs with hc
  · have h3 := invq_mutate ops
      (aSet st.vertex_scores e.target
        ⟨(score ops st e.target).g,
         (fns.successors e.target).foldl (fun lo sp =>
           let sc := ops.add sp.cost (score ops st sp.target).g
           if ops.lt sc lo then sc else lo) ops.maxv⟩) e.target
      (fun k hk => aFind?_aSet_ne _ _ _ hk) hq
    exact invq_mono (fun n h => h.elim Or.inl id) h3
  · exact hq

theorem cspRederiveBody_keys {N W : Type} [DecidableEq N] [DecidableEq W]
    (ops : WeightOps W) (fns : DStarLiteFns N W) (g_old : W)
    (st : DStarLite N W) (e : EdgeTo N W) (P : N → Prop)
    (hk : KeysFreshExcept ops fns st (fun n => n = e.target ∨ P n)) :
    KeysFreshExcept ops fns (cspRederiveBody ops fns g_old st e) P := by
  simp only [cspRederiveBody]
  apply update_vertex_keys
  split_ifs with hc
  · have h3 := keys_mutate ops fns
      (aSet st.vertex_scores e.target
        ⟨(score ops st e.target).g,
         (fns.successors e.target).foldl (fun lo sp =>
           let sc := ops.add sp.cost (score ops st sp.target).g
           if ops.lt sc lo then sc else lo) ops.maxv⟩) e.target
      (fun k hk => aFind?_aSet_ne _ _ _ hk) hk
    exact keys_mono (fun n h => h.elim Or.inl id) h3
  · exact hk

theorem cspRelax_foldl {N W : Type} [DecidableEq N] [DecidableEq W]
    (ops : WeightOps W) (fns : DStarLiteFns N W) (g_u : W) (u : N)
    (l : List (EdgeTo N W)) (st : DStarLite N W)
    (h : (QueueInv ops st ∧ KeysFresh ops fns st)
      ∨ (QueueInvExcept ops st (fun n => n = u)
         ∧ KeysFreshExcept ops fns st (fun n => n = u)
         ∧ (∀ e ∈ st.queue, e.1 ≠ u) ∧ ¬ Inconsistent ops st u)) :
    (QueueInv ops (l.foldl (cspRelaxBody ops fns g_u) st)
      ∧ KeysFresh ops fns (l.foldl (cspRelaxBody ops fns g_u) st))
    ∨ (QueueInvExcept ops (l.foldl (cspRelaxBody ops fns g_u) st)
        (fun n => n = u)
      ∧ KeysFreshExcept ops fns (l.foldl (cspRelaxBody ops fns g_u) st)
        (fun n => n = u)
      ∧ (∀ e ∈ (l.foldl (cspRelaxBody ops fns g_u) st).queue, e.1 ≠ u)
      ∧ ¬ Inconsistent ops (l.foldl (cspRelaxBody ops fns g_u) st) u) := by
  induction l generalizing st with
  | nil => exact h
  | cons e t ih =>
    rw [List.foldl_cons]
    apply ih
    rcases h with ⟨hq, hk⟩ | ⟨hq, hk, hno, hcons⟩
    · left
      constructor
      · rw [← invq_false_iff]
        exact cspRelaxBody_invq ops fns g_u st e _
          (invq_mono (fun n hn => Or.inr hn) (invq_false_iff.mpr hq))
      · rw [← keys_false_iff]
        exact cspRelaxBody_keys ops fns g_u st e _
          (keys_mono (fun n hn => Or.inr hn) (keys_false_iff.mpr hk))
    · by_cases he : e.target = u
      · left
        constructor
        · rw [← invq_false_iff]
          exact cspRelaxBody_invq ops fns g_u st e _
            (invq_mono (fun n hn => Or.inl (hn.trans he.symm)) hq)
        · rw [← keys_false_iff]
          exact cspRelaxBody_keys ops fns g_u st e _
            (keys_mono (fun n hn => Or.inl (hn.trans he.symm)) hk)
      · right
        refine ⟨cspRelaxBody_invq ops fns g_u st e _
            (invq_mono (fun n hn => Or.inr hn) hq),
          cspRelaxBody_keys ops fns g_u st e _
            (keys_mono (fun n hn => Or.inr hn) hk),
          cspRelaxBody_no_u ops fns g_u st e he hno, ?_⟩
        intro hinc
        unfold Inconsistent at hinc
        rw [cspRelaxBody_score_ne ops fns g_u st e he] at hinc
        exact hcons hinc

theorem cspRederive_foldl {N W : Type} [DecidableEq N] [DecidableEq W]
    (ops : WeightOps W) (fns : DStarLiteFns N W) (g_old : W) (u : N)
    (l : List (EdgeTo N W)) (st : DStarLite N W)
    (hq : QueueInvExcept ops st (fun n => n = u))
    (hk : KeysFreshExcept ops fns st (fun n => n = u)) :
    QueueInvExcept ops (l.foldl (cspRederiveBody ops fns g_old) st)
      (fun n => n = u)
    ∧ KeysFreshExcept ops fns (l.foldl (cspRederiveBody ops fns g_old) st)
      (fun n => n = u) := by
  induction l generalizing st with
  | nil => exact ⟨hq, hk⟩
  | cons e t ih =>
    rw [List.foldl_cons]
    exact ih _
      (cspRederiveBody_invq ops fns g_old st e _
        (invq_mono (fun n hn => Or.inr hn) hq))
      (cspRederiveBody_keys ops fns g_old st e _
        (keys_mono (fun n hn => Or.inr hn) hk))

theorem cspStep_preserves {N W : Type} [DecidableEq N] [DecidableEq W]
    (ops : WeightOps W) (fns : DStarLiteFns N W)
    (hirr : ∀ a : W, ops.lt a a = false) (st : DStarLite N W)
    (hq : QueueInv ops st) (hk : KeysFresh ops fns st) :
    QueueInv ops (cspStep ops fns st) ∧ KeysFresh ops fns (cspStep ops fns st) := by
  rcases hpop : qPop ops st.queue with _ | ⟨⟨u, k_old⟩, q1⟩
  · simp only [cspStep, hpop]
    exact ⟨hq, hk⟩
  · have hmem : ((u, k_old) : N × Priority W) ∈ st.queue := qPop_mem hpop
    have hkold : k_old = calculate_key ops fns st u := hk _ hmem
    have hq1 : QueueInvExcept ops { st with queue := q1 } (fun n => n = u) := by
      constructor
      · intro e he _
        exact hq.1 e (qPop_rest_mem hpop he)
      · intro e he hne hinc
        have h2 := hq.2 e he hinc
        show (qGet q1 e.1).isSome
        rw [qPop_qGet_ne hpop hne]
        exact h2
    have hk1 : KeysFresh ops fns { st with queue := q1 } := by
      intro e he
      exact hk e (qPop_rest_mem hpop he)
    have hknew : calculate_key ops fns { st with queue := q1 } u
        = calculate_key ops fns st u := rfl
    have hself : prioCmp ops k_old k_old = Ordering.eq := by
      simp [prioCmp, hirr]
    simp only [cspStep, hpop]
    split_ifs with hstale hover
    · exfalso
      rw [hknew, ← hkold, hself] at hstale
      exact absurd hstale (by decide)
    · -- overconsistent case
      have hq2 : QueueInvExcept ops
          { { st with queue := q1 } with
            vertex_scores := sEnsure ops { st with queue := q1 }.vertex_scores u }
          (fun n => n = u) :=
        invq_mono (fun n hn => hn.elim id id)
          (invq_mutate ops (sEnsure ops { st with queue := q1 }.vertex_scores u) u
            (fun k hk => aFind?_sEnsure_ne ops _ _ hk) hq1)
      have hk2 : KeysFreshExcept ops fns
          { { st with queue := q1 } with
            vertex_scores := sEnsure ops { st with queue := q1 }.vertex_scores u }
          (fun n => n = u) :=
        keys_mono (fun n hn => hn.elim id id)
          (keys_mutate ops fns (sEnsure ops { st with queue := q1 }.vertex_scores u) u
            (fun k hk => aFind?_sEnsure_ne ops _ _ hk) (fun e he _ => hk1 e he))
      set A : DStarLite N W := { st with queue := q1 } with hA
      set B : DStarLite N W :=
        { A with vertex_scores := sEnsure ops A.vertex_scores u } with hB
      set R : W := (score ops B u).rhs with hR
      set C : DStarLite N W :=
        { B with vertex_scores := aSet B.vertex_scores u ⟨R, R⟩ } with hC
      have hq3 : QueueInvExcept ops C (fun n => n = u) :=
        invq_mono (fun n hn => hn.elim id id)
          (invq_mutate ops (aSet B.vertex_scores u ⟨R, R⟩) u
            (fun k hk => aFind?_aSet_ne _ _ _ hk) hq2)
      have hk3 : KeysFreshExcept ops fns C (fun n => n = u) :=
        keys_mono (fun n hn => hn.elim id id)
          (keys_mutate ops fns (aSet B.vertex_scores u ⟨R, R⟩) u
            (fun k hk => aFind?_aSet_ne _ _ _ hk) hk2)
      have hq4 : QueueInvExcept ops { C with queue := qRemove C.queue u }
          (fun n => n = u) := by
        constructor
        · intro e he hne
          exact hq3.1 e (mem_qRemove.mp he).1 hne
        · intro e he hne hinc
          show (qGet (qRemove C.queue u) e.1).isSome
          rw [qGet_qRemove_ne _ _ hne]
          exact hq3.2 e he hne hinc
      have hk4 : KeysFreshExcept ops fns { C with queue := qRemove C.queue u }
          (fun n => n = u) :=
        fun e he hne => hk3 e (mem_qRemove.mp he).1 hne
      have hno4 : ∀ e ∈ ({ C with queue := qRemove C.queue u } :
          DStarLite N W).queue, e.1 ≠ u :=
        fun e he => (mem_qRemove.mp he).2
      have hcons4 : ¬ Inconsistent ops { C with queue := qRemove C.queue u } u := by
        unfold Inconsistent
        have hsc : score ops { C with queue := qRemove C.queue u } u = ⟨R, R⟩ := by
          show (aFind? (aSet B.vertex_scores u ⟨R, R⟩) u).getD _ = _
          rw [aFind?_aSet_self]
          rfl
        rw [hsc]
        simp
      rcases cspRelax_foldl ops fns R u (fns.predecessors u)
          { C with queue := qRemove C.queue u }
          (Or.inr ⟨hq4, hk4, hno4, hcons4⟩) with h | h
      · exact h
      · exact ⟨invq_singleton_toFull h.1 h.2.2.1 h.2.2.2,
          keys_singleton_toFull h.2.1 h.2.2.1⟩
    · -- underconsistent (or consistent) case
      have hq2 : QueueInvExcept ops
          { { st with queue := q1 } with
            vertex_scores := sEnsure ops { st with queue := q1 }.vertex_scores u }
          (fun n => n = u) :=
        invq_mono (fun n hn => hn.elim id id)
          (invq_mutate ops (sEnsure ops { st with queue := q1 }.vertex_scores u) u
            (fun k hk => aFind?_sEnsure_ne ops _ _ hk) hq1)
      have hk2 : KeysFreshExcept ops fns
          { { st with queue := q1 } with
            vertex_scores := sEnsure ops { st with queue := q1 }.vertex_scores u }
          (fun n => n = u) :=
        keys_mono (fun n hn => hn.elim id id)
          (keys_mutate ops fns (sEnsure ops { st with queue := q1 }.vertex_scores u) u
            (fun k hk => aFind?_sEnsure_ne ops _ _ hk) (fun e he _ => hk1 e he))
      set A : DStarLite N W := { st with queue := q1 } with hA
      set B : DStarLite N W :=
        { A with vertex_scores := sEnsure ops A.vertex_scores u } with hB
      set G : W := (score ops B u).g with hG
      set C : DStarLite N W :=
        { B with vertex_scores := aSet B.vertex_scores u ⟨ops.maxv, (score ops B u).rhs⟩ } with hC
      have hq3 : QueueInvExcept ops C (fun n => n = u) :=
        invq_mono (fun n hn => hn.elim id id)
          (invq_mutate ops (aSet B.vertex_scores u ⟨ops.maxv, (score ops B u).rhs⟩) u
            (fun k hk => aFind?_aSet_ne _ _ _ hk) hq2)
      have hk3 : KeysFreshExcept ops fns C (fun n => n = u) :=
        keys_mono (fun n hn => hn.elim id id)
          (keys_mutate ops fns (aSet B.vertex_scores u ⟨ops.maxv, (score ops B u).rhs⟩) u
            (fun k hk => aFind?_aSet_ne _ _ _ hk) hk2)
      rw [List.foldl_append, List.foldl_cons, List.foldl_nil]
      have hfold := cspRederive_foldl ops fns G u (fns.predecessors u) C hq3 hk3
      constructor
      · exact invq_false_iff.mp
          (cspRederiveBody_invq ops fns G _ ⟨u, ops.zero⟩ (fun _ => False)
            (invq_mono (fun n hn => Or.inl hn) hfold.1))
      · exact keys_false_iff.mp
          (cspRederiveBody_keys ops fns G _ ⟨u, ops.zero⟩ (fun _ => False)
            (keys_mono (fun n hn => Or.inl hn) hfold.2))

theorem compute_shortest_path_preserves {N W : Type} [DecidableEq N]
    [DecidableEq W] (ops : WeightOps W) (fns : DStarLiteFns N W)
    (hirr : ∀ a : W, ops.lt a a = false) :
    ∀ (fuel : Nat) (st st' : DStarLite N W), QueueInv ops st →
      KeysFresh ops fns st → compute_shortest_path ops fns fuel st = some st' →
      QueueInv ops st' ∧ KeysFresh ops fns st' := by
  intro fuel
  induction fuel with
  | zero =>
    intro st st' hq hk h
    simp only [compute_shortest_path] at h
    split_ifs at h
    exact Option.some.inj h ▸ ⟨hq, hk⟩
  | succ f ih =>
    intro st st' hq hk h
    simp only [compute_shortest_path] at h
    split_ifs at h with hc
    · have := cspStep_preserves ops fns hirr st hq hk
      exact ih _ _ this.1 this.2 h
    · exact Option.some.inj h ▸ ⟨hq, hk⟩

theorem newInit_invariants {N W : Type} [DecidableEq N] [DecidableEq W]
    (ops : WeightOps W) (fns : DStarLiteFns N W) (start goal : N)
    (hzm : ops.zero ≠ ops.maxv)
    (hmaxlt : ∀ a : W, ops.lt ops.maxv a = false)
    (hza : ∀ a : W, ops.add ops.zero a = a)
    (haz : ∀ a : W, ops.add a ops.zero = a) :
    QueueInv ops (newInit ops fns start goal)
      ∧ KeysFresh ops fns (newInit ops fns start goal) := by
  have hsc : score ops (newInit ops fns start goal) goal
      = ⟨ops.maxv, ops.zero⟩ := by
    show (aFind? [(goal, _)] goal).getD _ = _
    simp [aFind?]
  have hg : (score ops (newInit ops fns start goal) goal).g = ops.maxv := by
    rw [hsc]
  have hrhs : (score ops (newInit ops fns start goal) goal).rhs = ops.zero := by
    rw [hsc]
  have hinc : Inconsistent ops (newInit ops fns start goal) goal := by
    unfold Inconsistent
    rw [hg, hrhs]
    intro h
    exact hzm h.symm
  refine ⟨⟨?_, ?_⟩, ?_⟩
  · intro e he
    rcases List.mem_singleton.mp he with rfl
    exact ⟨by simp [aFind?], hinc⟩
  · intro e he _
    rcases List.mem_singleton.mp he with rfl
    simp [qGet, aFind?]
  · intro e he
    rcases List.mem_singleton.mp he with rfl
    show (⟨fns.heuristic start goal, ops.zero⟩ : Priority W)
      = calculate_key ops fns (newInit ops fns start goal) goal
    simp only [calculate_key]
    rw [hg, hrhs, hmaxlt]
    simp only [Bool.false_eq_true, if_false]
    rw [if_neg (fun h => hzm h)]
    show (⟨fns.heuristic start goal, ops.zero⟩ : Priority W)
      = ⟨ops.add (ops.add ops.zero (fns.heuristic start goal)) ops.zero, ops.zero⟩
    rw [hza, haz]

theorem updateEdgeStep_invq {N W : Type} [DecidableEq N] [DecidableEq W]
    (ops : WeightOps W) (fns : DStarLiteFns N W) (st : DStarLite N W)
    (edge : Edge N W) (c : W) (hq : QueueInv ops st) :
    QueueInv ops (updateEdgeStep ops fns st edge c) := by
  simp only [updateEdgeStep]
  rw [← invq_false_iff]
  apply update_vertex_invq
  split_ifs with hc1 hc2 hc3 hc4
  · exact invq_mutate ops _ edge.successor
      (fun k hk => by rw [aFind?_aSet_ne _ _ _ hk, aFind?_sEnsure_ne ops _ _ hk])
      (invq_false_iff.mpr hq)
  · exact invq_mutate ops _ edge.successor
      (fun k hk => aFind?_sEnsure_ne ops _ _ hk) (invq_false_iff.mpr hq)
  · exact invq_mutate ops _ edge.successor
      (fun k hk => by rw [aFind?_aSet_ne _ _ _ hk, aFind?_sEnsure_ne ops _ _ hk])
      (invq_false_iff.mpr hq)
  · exact invq_mutate ops _ edge.successor
      (fun k hk => aFind?_sEnsure_ne ops _ _ hk) (invq_false_iff.mpr hq)
  · exact invq_mutate ops _ edge.successor
      (fun k hk => aFind?_sEnsure_ne ops _ _ hk) (invq_false_iff.mpr hq)

theorem drainUpdates_invq {N W : Type} [DecidableEq N] [DecidableEq W]
    (ops : WeightOps W) (fns : DStarLiteFns N W) :
    ∀ (l : List (Edge N W × W)) (st : DStarLite N W), QueueInv ops st →
      QueueInv ops (drainUpdates ops fns l st) := by
  intro l
  induction l with
  | nil =>
    intro st hq
    exact hq
  | cons p t ih =>
    intro st hq
    exact ih _ (updateEdgeStep_invq ops fns st p.1 p.2 hq)

theorem update_from_updated_edges_invq {N W : Type} [DecidableEq N]
    [DecidableEq W] (ops : WeightOps W) (fns : DStarLiteFns N W)
    (st : DStarLite N W) (hq : QueueInv ops st) :
    QueueInv ops (update_from_updated_edges ops fns st) := by
  simp only [update_from_updated_edges]
  apply drainUpdates_invq
  exact hq

theorem try_next_invq {N W : Type} [DecidableEq N] [DecidableEq W]
    (ops : WeightOps W) (fns : DStarLiteFns N W) (st : DStarLite N W)
    (r : TryNextResult N) (st' : DStarLite N W)
    (hq : QueueInv ops st) (h : try_next ops fns st = some (r, st')) :
    QueueInv ops st' := by
  simp only [try_next] at h
  split_ifs at h with h1 h2
  · exact (Prod.mk.injEq _ _ _ _ ▸ Option.some.inj h).2 ▸ hq
  · exact (Prod.mk.injEq _ _ _ _ ▸ Option.some.inj h).2 ▸ hq
  · rcases hsucc : fns.successors st.start with _ | ⟨e, rest⟩
    · rw [hsucc] at h
      simp at h
    · rw [hsucc] at h
      simp only at h
      have h2 := (Prod.mk.injEq _ _ _ _ ▸ Option.some.inj h).2
      rw [← h2]
      exact hq

/-- **C4**: the open queue contains exactly the discovered inconsistent
nodes (`g ≠ rhs`) whenever control is outside the planner's methods:
the invariant holds after `new` (whose `compute_shortest_path` run
terminated), and is preserved by every public `update_vertex` call, by
`compute_shortest_path` (which additionally preserves key freshness —
during it `start` and `k_m` never move, so the stale-key branch that
would drop a node is provably dead), by `update_from_updated_edges` and
by `try_next`.  The weight laws assumed (`<` irreflexive, `∞` maximal,
`0` an additive identity distinct from `∞`) are the spec's contract
for the Weight type. -/
theorem c4_queue_holds_exactly_inconsistent {N W : Type} [DecidableEq N]
    [DecidableEq W] (ops : WeightOps W) (fns : DStarLiteFns N W)
    (hirr : ∀ a : W, ops.lt a a = false)
    (hzm : ops.zero ≠ ops.maxv)
    (hmaxlt : ∀ a : W, ops.lt ops.maxv a = false)
    (hza : ∀ a : W, ops.add ops.zero a = a)
    (haz : ∀ a : W, ops.add a ops.zero = a) :
    (∀ (start goal : N) (fuel : Nat) (st' : DStarLite N W),
      newDStarLite ops fns start goal fuel = some st' → QueueInv ops st')
    ∧ (∀ st : DStarLite N W, ∀ u : N, QueueInv ops st →
      QueueInv ops (update_vertex ops fns st u))
    ∧ (∀ (fuel : Nat) (st st' : DStarLite N W), QueueInv ops st →
      KeysFresh ops fns st → compute_shortest_path ops fns fuel st = some st' →
      QueueInv ops st')
    ∧ (∀ st : DStarLite N W, QueueInv ops st →
      QueueInv ops (update_from_updated_edges ops fns st))
    ∧ (∀ (st : DStarLite N W) (r : TryNextResult N) (st' : DStarLite N W),
      QueueInv ops st → try_next ops fns st = some (r, st') →
      QueueInv ops st') := by
  refine ⟨?_, ?_, ?_, ?_, ?_⟩
  · intro start goal fuel st' h
    have h0 := newInit_invariants ops fns start goal hzm hmaxlt hza haz
    exact (compute_shortest_path_preserves ops fns hirr fuel _ st' h0.1 h0.2 h).1
  · intro st u hq
    rw [← invq_false_iff]
    exact update_vertex_invq ops fns st u _
      (invq_mono (fun n hn => Or.inr hn) (invq_false_iff.mpr hq))
  · intro fuel st st' hq hk h
    exact (compute_shortest_path_preserves ops fns hirr fuel st st' hq hk h).1
  · intro st hq
    exact update_from_updated_edges_invq ops fns st hq
  · intro st r st' hq h
    exact try_next_invq ops fns st r st' hq h

/-- Witness for C4 over the two-valued weight instance: `new(0, 1, ...)`
with the trivial oracle converges in two loop iterations to
`boolFinalState`, whose queue (empty) holds exactly its inconsistent
discovered nodes (none). -/
theorem c4_queue_holds_exactly_inconsistent_witness :
    newDStarLite opsBool trivialBoolFns 0 1 2 = some boolFinalState
    ∧ QueueInv opsBool boolFinalState :=
  ⟨by decide,
    (c4_queue_holds_exactly_inconsistent opsBool trivialBoolFns
      (by decide) (by decide) (by decide) (by decide) (by decide)).1
      0 1 2 boolFinalState (by decide)⟩

/-! ## Termination of the initial run (claim C7)

The popped node's `g` strictly drops to a walk cost (a finite sum of
edge costs) at every reachable iteration; by Dickson's lemma no
infinite strictly decreasing sequence of walk costs over a finite cost
alphabet exists, so the loop guard eventually fails. -/

theorem update_vertex_scores {N W : Type} [DecidableEq N] [DecidableEq W]
    (ops : WeightOps W) (fns : DStarLiteFns N W) (st : DStarLite N W)
    (s : N) : (update_vertex ops fns st s).vertex_scores = st.vertex_scores := by
  simp only [update_vertex]
  split_ifs <;> rfl

theorem score_sEnsure {N W : Type} [DecidableEq N] (ops : WeightOps W)
    (st : DStarLite N W) (t n : N) :
    score ops { st with vertex_scores := sEnsure ops st.vertex_scores t } n
      = score ops st n := by
  show (aFind? (sEnsure ops st.vertex_scores t) n).getD _ = _
  rw [aFind?_sEnsure_getD]
  rfl

theorem zero_mem_valsOf {W : Type} [AddCommMonoid W] (C : Finset W) :
    (0 : W) ∈ ValsOf C :=
  ⟨0, fun c hc => absurd hc (by simp), by simp⟩

theorem add_mem_valsOf {W : Type} [AddCommMonoid W] {C : Finset W} {c w : W}
    (hc : c ∈ C) (hw : w ∈ ValsOf C) : c + w ∈ ValsOf C := by
  obtain ⟨m, hm, rfl⟩ := hw
  refine ⟨c ::ₘ m, fun x hx => ?_, (Multiset.sum_cons c m).symm⟩
  rcases Multiset.mem_cons.mp hx with h | h
  · exact h ▸ hc
  · exact hm x h

theorem multiset_sum_eq_sum_count {W : Type} [AddCommMonoid W] [DecidableEq W]
    (C : Finset W) : ∀ m : Multiset W, (∀ c ∈ m, c ∈ C) →
    m.sum = ∑ c ∈ C, m.count c • c := by
  intro m
  induction m using Multiset.induction with
  | empty => intro _; simp
  | cons a s ih =>
    intro hm
    have ha : a ∈ C := hm a (Multiset.mem_cons_self a s)
    have hs : ∀ c ∈ s, c ∈ C := fun c hc => hm c (Multiset.mem_cons_of_mem hc)
    rw [Multiset.sum_cons, ih hs]
    have hsplit : ∑ c ∈ C, (a ::ₘ s).count c • c
        = ∑ c ∈ C, (s.count c • c + if c = a then c else 0) := by
      refine Finset.sum_congr rfl (fun c _ => ?_)
      rw [Multiset.count_cons, add_nsmul]
      by_cases hca : c = a <;> simp [hca]
    rw [hsplit, Finset.sum_add_distrib, Finset.sum_ite_eq' C a (fun c => c)]
    simp [ha, add_comm]

theorem pi_const_nat_isPWO {I : Type} [Finite I] (s : Set (I → Nat)) :
    s.IsPWO :=
  @Pi.isPWO I (fun _ => Nat) (fun _ => inferInstance)
    (fun _ => (inferInstance : IsWellOrder Nat (· < ·))) inferInstance s

/-- **Dickson's lemma**, specialised: there is no strictly decreasing
sequence of sums of nonnegative costs drawn from a finite alphabet. -/
theorem valsOf_no_strict_descent {W : Type} [LinearOrderedAddCommMonoid W]
    [DecidableEq W] (C : Finset W) (hC : ∀ c ∈ C, (0 : W) ≤ c)
    (f : Nat → W) (hf : ∀ k, f k ∈ ValsOf C)
    (hdec : ∀ i j, i < j → f j < f i) : False := by
  have hf' : ∀ k, ∃ m : Multiset W, (∀ c ∈ m, c ∈ C) ∧ f k = m.sum := hf
  choose m hmC hsum using hf'
  have hpwo : (Set.univ : Set ({ x // x ∈ C } → Nat)).IsPWO :=
    pi_const_nat_isPWO _
  obtain ⟨i, j, hij, hle⟩ :=
    hpwo (fun k c => (m k).count c.1) (fun _ => Set.mem_univ _)
  have h1 : f i ≤ f j := by
    rw [hsum i, hsum j, multiset_sum_eq_sum_count C (m i) (hmC i),
      multiset_sum_eq_sum_count C (m j) (hmC j),
      ← Finset.sum_attach C (fun c => (m i).count c • c),
      ← Finset.sum_attach C (fun c => (m j).count c • c)]
    exact Finset.sum_le_sum (fun c _ => nsmul_le_nsmul_left (hC c.1 c.2) (hle c))
  exact absurd h1 (not_le.mpr (hdec i j hij))

theorem cspRelaxBody_score_eq {N W : Type} [DecidableEq N] [DecidableEq W]
    (ops : WeightOps W) (fns : DStarLiteFns N W) (g_u : W)
    (st : DStarLite N W) (e : EdgeTo N W) (n : N) :
    score ops (cspRelaxBody ops fns g_u st e) n =
      if n = e.target
          ∧ ops.lt (ops.add e.cost g_u) (score ops st e.target).rhs = true
      then ⟨(score ops st e.target).g, ops.add e.cost g_u⟩
      else score ops st n := by
  simp only [cspRelaxBody]
  rw [score_update_vertex]
  simp only [score_sEnsure]
  by_cases hc : ops.lt (ops.add e.cost g_u) (score ops st e.target).rhs = true
  · rw [if_pos hc]
    by_cases hn : n = e.target
    · subst hn
      rw [if_pos ⟨rfl, hc⟩]
      show (aFind? (aSet _ _ _) e.target).getD _ = _
      rw [aFind?_aSet_self]
      rfl
    · rw [if_neg (fun h => hn h.1)]
      show (aFind? (aSet _ _ _) n).getD _ = _
      rw [aFind?_aSet_ne _ _ _ hn, aFind?_sEnsure_ne ops _ _ hn]
      rfl
  · rw [if_neg hc, if_neg (fun h => hc h.2)]
    exact score_sEnsure ops st e.target n

theorem cspRelaxBody_scores_mem {N W : Type} [DecidableEq N] [DecidableEq W]
    (ops : WeightOps W) (fns : DStarLiteFns N W) (g_u : W)
    (st : DStarLite N W) (e : EdgeTo N W) {x : N × VertexScore W}
    (hx : x ∈ (cspRelaxBody ops fns g_u st e).vertex_scores) :
    x ∈ st.vertex_scores ∨ x.1 = e.target := by
  simp only [cspRelaxBody] at hx
  rw [update_vertex_scores] at hx
  split_ifs at hx with hc
  · rcases mem_aSet hx with h | h
    · exact Or.inr (by rw [h])
    · rcases mem_sEnsure h with h2 | h2
      · exact Or.inl h2
      · exact Or.inr (by rw [h2])
  · rcases mem_sEnsure hx with h2 | h2
    · exact Or.inl h2
    · exact Or.inr (by rw [h2])

theorem lawfulOps_lt {W : Type} [LinearOrder W] [AddCommMonoid W]
    (maxv a b : W) : (lawfulOps W maxv).lt a b = decide (a < b) := rfl

theorem lawfulOps_add {W : Type} [LinearOrder W] [AddCommMonoid W]
    (maxv a b : W) : (lawfulOps W maxv).add a b = a + b := rfl

/-- One relaxation step under lawful weights: `g` values are untouched,
the run invariants are preserved, and `u`'s just-finalised score
`(g_u, g_u)` survives (the relaxation at `u` itself never fires because
its would-be value `cost + g_u` is no smaller than `g_u`). -/
theorem cspRelaxBody_facts {N W : Type} [DecidableEq N] [DecidableEq W]
    [LinearOrderedAddCommMonoid W] (maxv : W) (fns : DStarLiteFns N W)
    (nodes : Finset N) (C : Finset W) (g_u : W) (u : N)
    (st : DStarLite N W) (e : EdgeTo N W)
    (hc : e.cost ∈ C) (hc0 : (0 : W) ≤ e.cost) (ht : e.target ∈ nodes)
    (hgu : g_u ∈ ValsOf C)
    (hnu : NeverUnder (lawfulOps W maxv) st)
    (hsv : ScoresInVals (lawfulOps W maxv) C st)
    (hdisc : DiscoveredIn st nodes)
    (hu : score (lawfulOps W maxv) st u = ⟨g_u, g_u⟩) :
    (∀ n, (score (lawfulOps W maxv)
        (cspRelaxBody (lawfulOps W maxv) fns g_u st e) n).g
      = (score (lawfulOps W maxv) st n).g)
    ∧ NeverUnder (lawfulOps W maxv) (cspRelaxBody (lawfulOps W maxv) fns g_u st e)
    ∧ ScoresInVals (lawfulOps W maxv) C (cspRelaxBody (lawfulOps W maxv) fns g_u st e)
    ∧ DiscoveredIn (cspRelaxBody (lawfulOps W maxv) fns g_u st e) nodes
    ∧ score (lawfulOps W maxv) (cspRelaxBody (lawfulOps W maxv) fns g_u st e) u
        = ⟨g_u, g_u⟩ := by
  refine ⟨?_, ?_, ?_, ?_, ?_⟩
  · intro n
    rw [cspRelaxBody_score_eq]
    split_ifs with h
    · obtain ⟨rfl, _⟩ := h
      rfl
    · rfl
  · intro n
    rw [cspRelaxBody_score_eq]
    split_ifs with h
    · obtain ⟨rfl, h2⟩ := h
      show (lawfulOps W maxv).add e.cost g_u
        ≤ (score (lawfulOps W maxv) st e.target).g
      have hlt : e.cost + g_u < (score (lawfulOps W maxv) st e.target).rhs :=
        of_decide_eq_true h2
      exact (hlt.trans_le (hnu e.target)).le
    · exact hnu n
  · intro n
    rw [cspRelaxBody_score_eq]
    split_ifs with h
    · obtain ⟨rfl, h2⟩ := h
      refine ⟨(hsv e.target).1, Or.inr ?_⟩
      show (lawfulOps W maxv).add e.cost g_u ∈ ValsOf C
      exact add_mem_valsOf hc hgu
    · exact hsv n
  · intro x hx
    rcases cspRelaxBody_scores_mem _ _ _ _ _ hx with h | h
    · exact hdisc x h
    · rw [h]
      exact ht
  · rw [cspRelaxBody_score_eq]
    split_ifs with h
    · exfalso
      obtain ⟨he, h2⟩ := h
      have h3 : e.cost + g_u < (score (lawfulOps W maxv) st e.target).rhs :=
        of_decide_eq_true h2
      rw [← he, hu] at h3
      exact absurd h3 (not_lt.mpr (le_add_of_nonneg_left hc0))
    · exact hu

/-- The relaxation fold of the overconsistent branch preserves the run
facts wholesale. -/
theorem cspRelax_foldl_facts {N W : Type} [DecidableEq N] [DecidableEq W]
    [LinearOrderedAddCommMonoid W] (maxv : W) (fns : DStarLiteFns N W)
    (nodes : Finset N) (C : Finset W) (g_u : W) (u : N) :
    ∀ (l : List (EdgeTo N W)) (st : DStarLite N W),
      (∀ e ∈ l, e.cost ∈ C ∧ (0 : W) ≤ e.cost ∧ e.target ∈ nodes) →
      g_u ∈ ValsOf C →
      NeverUnder (lawfulOps W maxv) st →
      ScoresInVals (lawfulOps W maxv) C st →
      DiscoveredIn st nodes →
      score (lawfulOps W maxv) st u = ⟨g_u, g_u⟩ →
      (∀ n, (score (lawfulOps W maxv)
          (l.foldl (cspRelaxBody (lawfulOps W maxv) fns g_u) st) n).g
        = (score (lawfulOps W maxv) st n).g)
      ∧ NeverUnder (lawfulOps W maxv)
          (l.foldl (cspRelaxBody (lawfulOps W maxv) fns g_u) st)
      ∧ ScoresInVals (lawfulOps W maxv) C
          (l.foldl (cspRelaxBody (lawfulOps W maxv) fns g_u) st)
      ∧ DiscoveredIn (l.foldl (cspRelaxBody (lawfulOps W maxv) fns g_u) st) nodes
      ∧ score (lawfulOps W maxv)
          (l.foldl (cspRelaxBody (lawfulOps W maxv) fns g_u) st) u
        = ⟨g_u, g_u⟩ := by
  intro l
  induction l with
  | nil =>
    intro st _ _ hnu hsv hdisc hu
    exact ⟨fun n => rfl, hnu, hsv, hdisc, hu⟩
  | cons e t ih =>
    intro st hl hgu hnu hsv hdisc hu
    obtain ⟨hc, hc0, ht⟩ := hl e (List.mem_cons_self e t)
    have hb := cspRelaxBody_facts maxv fns nodes C g_u u st e hc hc0 ht hgu
      hnu hsv hdisc hu
    have hrec := ih (cspRelaxBody (lawfulOps W maxv) fns g_u st e)
      (fun x hx => hl x (List.mem_cons_of_mem e hx)) hgu
      hb.2.1 hb.2.2.1 hb.2.2.2.1 hb.2.2.2.2
    rw [List.foldl_cons]
    exact ⟨fun n => (hrec.1 n).trans (hb.1 n), hrec.2⟩

/-- The run invariant holds at the state `new` seeds before its
`compute_shortest_path` call. -/
theorem newInit_runinv {N W : Type} [DecidableEq N] [DecidableEq W]
    [LinearOrderedAddCommMonoid W] (maxv : W) (hmax : ∀ a : W, a ≤ maxv)
    (hzm : (0 : W) ≠ maxv) (fns : DStarLiteFns N W) (nodes : Finset N)
    (start goal : N) (hgoal : goal ∈ nodes) :
    RunInv (lawfulOps W maxv) fns nodes
      (newInit (lawfulOps W maxv) fns start goal) := by
  have h0 := newInit_invariants (lawfulOps W maxv) fns start goal hzm
    (fun a => decide_eq_false (not_lt.mpr (hmax a))) zero_add add_zero
  have hsc : score (lawfulOps W maxv) (newInit (lawfulOps W maxv) fns start goal)
      goal = ⟨maxv, 0⟩ := by
    show (aFind? [(goal, _)] goal).getD _ = _
    simp [aFind?]
    exact ⟨rfl, rfl⟩
  have hsd : ∀ n, n ≠ goal →
      score (lawfulOps W maxv) (newInit (lawfulOps W maxv) fns start goal) n
        = ⟨maxv, maxv⟩ := by
    intro n hn
    show (aFind? [(goal, _)] n).getD _ = _
    have hgn : ¬ goal = n := fun h => hn h.symm
    simp [aFind?, hgn]
    rfl
  refine ⟨h0.1, h0.2, ?_, ?_, ?_⟩
  · intro n
    by_cases hn : n = goal
    · subst hn
      rw [hsc]
      exact hmax 0
    · rw [hsd n hn]
  · intro e he
    rcases List.mem_singleton.mp he with rfl
    exact hgoal
  · intro n
    by_cases hn : n = goal
    · subst hn
      rw [hsc]
      exact ⟨Or.inl rfl, Or.inr (zero_mem_valsOf _)⟩
    · rw [hsd n hn]
      exact ⟨Or.inl rfl, Or.inl rfl⟩

/-- One loop iteration under the run invariant: the invariant is
preserved, and whenever a node is popped the overconsistent branch is
the one taken (the stale-key branch is dead by key freshness, the
underconsistent branch by `NeverUnder`), so the popped node's `g`
strictly drops to its `rhs` — a walk cost — every other `g` is
unchanged, and the popped node ends the iteration consistent. -/
theorem cspStep_runinv {N W : Type} [DecidableEq N] [DecidableEq W]
    [LinearOrderedAddCommMonoid W] (maxv : W) (hmax : ∀ a : W, a ≤ maxv)
    (fns : DStarLiteFns N W) (nodes : Finset N)
    (hclosed : ∀ n ∈ nodes, ∀ e ∈ fns.predecessors n, e.target ∈ nodes)
    (hcost : ∀ n ∈ nodes, ∀ e ∈ fns.predecessors n, (0 : W) ≤ e.cost)
    (st : DStarLite N W)
    (hinv : RunInv (lawfulOps W maxv) fns nodes st) :
    RunInv (lawfulOps W maxv) fns nodes (cspStep (lawfulOps W maxv) fns st)
    ∧ ∀ (u : N) (k_old : Priority W) (q1 : List (N × Priority W)),
        qPop (lawfulOps W maxv) st.queue = some ((u, k_old), q1) →
        u ∈ nodes
        ∧ (score (lawfulOps W maxv) (cspStep (lawfulOps W maxv) fns st) u).g
            = (score (lawfulOps W maxv) st u).rhs
        ∧ (score (lawfulOps W maxv) st u).rhs
            < (score (lawfulOps W maxv) st u).g
        ∧ (score (lawfulOps W maxv) st u).rhs ∈ ValsOf (edgeCosts fns nodes)
        ∧ (∀ n, n ≠ u →
            (score (lawfulOps W maxv) (cspStep (lawfulOps W maxv) fns st) n).g
              = (score (lawfulOps W maxv) st n).g)
        ∧ ¬ Inconsistent (lawfulOps W maxv)
            (cspStep (lawfulOps W maxv) fns st) u := by
  obtain ⟨hq, hk, hnu, hdisc, hsv⟩ := hinv
  have hirr : ∀ a : W, (lawfulOps W maxv).lt a a = false :=
    fun a => decide_eq_false (lt_irrefl a)
  have hqk := cspStep_preserves (lawfulOps W maxv) fns hirr st hq hk
  rcases hpop : qPop (lawfulOps W maxv) st.queue with _ | ⟨⟨u, k_old⟩, q1⟩
  · have hstep : cspStep (lawfulOps W maxv) fns st = st := by
      simp only [cspStep, hpop]
    rw [hstep]
    refine ⟨⟨hq, hk, hnu, hdisc, hsv⟩, ?_⟩
    intro u k_old q1 h
    exact Option.noConfusion h
  · have hmem : ((u, k_old) : N × Priority W) ∈ st.queue := qPop_mem hpop
    have hudisc : (aFind? st.vertex_scores u).isSome := (hq.1 _ hmem).1
    have huinc : Inconsistent (lawfulOps W maxv) st u := (hq.1 _ hmem).2
    obtain ⟨v, hv⟩ := Option.isSome_iff_exists.mp hudisc
    have hunodes : u ∈ nodes := hdisc (u, v) (aFind?_some_mem hv)
    have hrl : (score (lawfulOps W maxv) st u).rhs
        < (score (lawfulOps W maxv) st u).g :=
      lt_of_le_of_ne (hnu u) (fun h => huinc h.symm)
    have hrmax : (score (lawfulOps W maxv) st u).rhs ≠ maxv := by
      intro h
      have h2 := lt_of_lt_of_le hrl (hmax (score (lawfulOps W maxv) st u).g)
      rw [h] at h2
      exact lt_irrefl maxv h2
    have hrvals : (score (lawfulOps W maxv) st u).rhs
        ∈ ValsOf (edgeCosts fns nodes) := (hsv u).2.resolve_left hrmax
    have hknew : calculate_key (lawfulOps W maxv) fns { st with queue := q1 } u
        = calculate_key (lawfulOps W maxv) fns st u := rfl
    have hkold : k_old = calculate_key (lawfulOps W maxv) fns st u := hk _ hmem
    have hself : prioCmp (lawfulOps W maxv) k_old k_old = Ordering.eq := by
      simp [prioCmp, hirr]
    have hBu : score (lawfulOps W maxv)
        { st with
          queue := q1
          vertex_scores := sEnsure (lawfulOps W maxv) st.vertex_scores u } u
        = score (lawfulOps W maxv) st u := by
      show (aFind? (sEnsure (lawfulOps W maxv) st.vertex_scores u) u).getD _ = _
      rw [aFind?_sEnsure_getD]
      rfl
    simp only [cspStep, hpop] at hqk ⊢
    split_ifs at hqk ⊢ with hstale hover
    · exfalso
      rw [hknew, ← hkold, hself] at hstale
      exact absurd hstale (by decide)
    · rw [hBu] at hqk ⊢
      have hsD : ∀ n, n ≠ u → score (lawfulOps W maxv)
          { st with
            queue := qRemove q1 u
            vertex_scores := aSet (sEnsure (lawfulOps W maxv) st.vertex_scores u) u
              ⟨(score (lawfulOps W maxv) st u).rhs,
               (score (lawfulOps W maxv) st u).rhs⟩ } n
          = score (lawfulOps W maxv) st n := by
        intro n hn
        show (aFind? (aSet (sEnsure (lawfulOps W maxv) st.vertex_scores u) u _)
          n).getD _ = _
        rw [aFind?_aSet_ne _ _ _ hn, aFind?_sEnsure_ne (lawfulOps W maxv) _ _ hn]
        rfl
      have hsDu : score (lawfulOps W maxv)
          { st with
            queue := qRemove q1 u
            vertex_scores := aSet (sEnsure (lawfulOps W maxv) st.vertex_scores u) u
              ⟨(score (lawfulOps W maxv) st u).rhs,
               (score (lawfulOps W maxv) st u).rhs⟩ } u
          = ⟨(score (lawfulOps W maxv) st u).rhs,
             (score (lawfulOps W maxv) st u).rhs⟩ := by
        show (aFind? (aSet (sEnsure (lawfulOps W maxv) st.vertex_scores u) u _)
          u).getD _ = _
        rw [aFind?_aSet_self]
        rfl
      have hnuD : NeverUnder (lawfulOps W maxv)
          { st with
            queue := qRemove q1 u
            vertex_scores := aSet (sEnsure (lawfulOps W maxv) st.vertex_scores u) u
              ⟨(score (lawfulOps W maxv) st u).rhs,
               (score (lawfulOps W maxv) st u).rhs⟩ } := by
        intro n
        by_cases hn : n = u
        · subst hn
          rw [hsDu]
        · rw [hsD n hn]
          exact hnu n
      have hsvD : ScoresInVals (lawfulOps W maxv) (edgeCosts fns nodes)
          { st with
            queue := qRemove q1 u
            vertex_scores := aSet (sEnsure (lawfulOps W maxv) st.vertex_scores u) u
              ⟨(score (lawfulOps W maxv) st u).rhs,
               (score (lawfulOps W maxv) st u).rhs⟩ } := by
        intro n
        by_cases hn : n = u
        · subst hn
          rw [hsDu]
          exact ⟨Or.inr hrvals, Or.inr hrvals⟩
        · rw [hsD n hn]
          exact hsv n
      have hdiscD : DiscoveredIn
          { st with
            queue := qRemove q1 u
            vertex_scores := aSet (sEnsure (lawfulOps W maxv) st.vertex_scores u) u
              ⟨(score (lawfulOps W maxv) st u).rhs,
               (score (lawfulOps W maxv) st u).rhs⟩ } nodes := by
        intro x hx
        have hx' : x ∈ aSet (sEnsure (lawfulOps W maxv) st.vertex_scores u) u
            ⟨(score (lawfulOps W maxv) st u).rhs,
             (score (lawfulOps W maxv) st u).rhs⟩ := hx
        rcases mem_aSet hx' with h | h
        · rw [h]
          exact hunodes
        · rcases mem_sEnsure h with h2 | h2
          · exact hdisc x h2
          · rw [h2]
            exact hunodes
      have hl : ∀ e ∈ fns.predecessors u,
          e.cost ∈ edgeCosts fns nodes ∧ (0 : W) ≤ e.cost ∧ e.target ∈ nodes :=
        fun e he => ⟨Finset.mem_biUnion.mpr ⟨u, hunodes,
            List.mem_toFinset.mpr (List.mem_map.mpr ⟨e, he, rfl⟩)⟩,
          hcost u hunodes e he, hclosed u hunodes e he⟩
      have hfold := cspRelax_foldl_facts maxv fns nodes (edgeCosts fns nodes)
        ((score (lawfulOps W maxv) st u).rhs) u (fns.predecessors u)
        { st with
          queue := qRemove q1 u
          vertex_scores := aSet (sEnsure (lawfulOps W maxv) st.vertex_scores u) u
            ⟨(score (lawfulOps W maxv) st u).rhs,
             (score (lawfulOps W maxv) st u).rhs⟩ }
        hl hrvals hnuD hsvD hdiscD hsDu
      refine ⟨⟨hqk.1, hqk.2, hfold.2.1, hfold.2.2.2.1, hfold.2.2.1⟩, ?_⟩
      intro u' k' q' h
      injection h with h2
      injection h2 with h3 h4
      injection h3 with h5 h6
      subst h5
      subst h6
      subst h4
      refine ⟨hunodes, ?_, hrl, hrvals, ?_, ?_⟩
      · exact congrArg VertexScore.g hfold.2.2.2.2
      · intro n hn
        exact (hfold.1 n).trans (congrArg VertexScore.g (hsD n hn))
      · intro hinc
        exact hinc ((congrArg VertexScore.g hfold.2.2.2.2).trans
          (congrArg VertexScore.rhs hfold.2.2.2.2).symm)
    · exfalso
      have hcond : (lawfulOps W maxv).lt
          (score (lawfulOps W maxv)
            { st with
              queue := q1
              vertex_scores := sEnsure (lawfulOps W maxv) st.vertex_scores u } u).rhs
          (score (lawfulOps W maxv)
            { st with
              queue := q1
              vertex_scores := sEnsure (lawfulOps W maxv) st.vertex_scores u } u).g
          = true := by
        rw [hBu]
        exact decide_eq_true hrl
      exact hover hcond

/-- If the loop guard fails after `k` iterations, fuel `k` suffices for
`compute_shortest_path` to return. -/
theorem compute_shortest_path_of_iterate {N W : Type} [DecidableEq N]
    [DecidableEq W] (ops : WeightOps W) (fns : DStarLiteFns N W) :
    ∀ (k : Nat) (st : DStarLite N W),
      cspCond ops fns ((cspStep ops fns)^[k] st) = false →
      ∃ st', compute_shortest_path ops fns k st = some st' := by
  intro k
  induction k with
  | zero =>
    intro st h
    rw [Function.iterate_zero, id_eq] at h
    exact ⟨st, by simp [compute_shortest_path, h]⟩
  | succ f ih =>
    intro st h
    by_cases hc : cspCond ops fns st = true
    · rw [Function.iterate_succ_apply] at h
      obtain ⟨st', hst'⟩ := ih (cspStep ops fns st) h
      refine ⟨st', ?_⟩
      simp only [compute_shortest_path]
      rw [if_pos hc]
      exact hst'
    · refine ⟨st, ?_⟩
      simp only [compute_shortest_path]
      rw [if_neg hc]

/-- The initial `compute_shortest_path` run terminates: were the guard
to hold forever, some node of the finite universe would be popped
infinitely often, and its `g` would descend strictly through walk
costs forever — impossible by Dickson's lemma. -/
theorem cspRun_terminates {N W : Type} [DecidableEq N] [DecidableEq W]
    [LinearOrderedAddCommMonoid W] (maxv : W) (hmax : ∀ a : W, a ≤ maxv)
    (hzm : (0 : W) ≠ maxv) (fns : DStarLiteFns N W) (nodes : Finset N)
    (start goal : N) (hgoal : goal ∈ nodes)
    (hclosed : ∀ n ∈ nodes, ∀ e ∈ fns.predecessors n, e.target ∈ nodes)
    (hcost : ∀ n ∈ nodes, ∀ e ∈ fns.predecessors n, (0 : W) ≤ e.cost) :
    ∃ k : Nat, cspCond (lawfulOps W maxv) fns
      ((cspStep (lawfulOps W maxv) fns)^[k]
        (newInit (lawfulOps W maxv) fns start goal)) = false := by
  set F := cspStep (lawfulOps W maxv) fns with hF
  set X := newInit (lawfulOps W maxv) fns start goal with hX
  by_contra hcon
  push_neg at hcon
  have hall : ∀ k, cspCond (lawfulOps W maxv) fns (F^[k] X) = true := by
    intro k
    cases hcb : cspCond (lawfulOps W maxv) fns (F^[k] X) with
    | false => exact absurd hcb (hcon k)
    | true => rfl
  have hsucc : ∀ k, F^[k + 1] X = F (F^[k] X) :=
    fun k => Function.iterate_succ_apply' F k X
  have hinv : ∀ k, RunInv (lawfulOps W maxv) fns nodes (F^[k] X) := by
    intro k
    induction k with
    | zero =>
      rw [Function.iterate_zero, id_eq]
      exact newInit_runinv maxv hmax hzm fns nodes start goal hgoal
    | succ f ih =>
      rw [hsucc f]
      exact (cspStep_runinv maxv hmax fns nodes hclosed hcost (F^[f] X) ih).1
  have hpops : ∀ k, ∃ a b c, qPop (lawfulOps W maxv) (F^[k] X).queue
      = some ((a, b), c) := by
    intro k
    rcases hq2 : qPop (lawfulOps W maxv) (F^[k] X).queue with _ | ⟨⟨a, b⟩, c⟩
    · exfalso
      have hc := hall k
      simp [cspCond, qPeek, hq2] at hc
    · exact ⟨a, b, c, rfl⟩
  choose uu ko qr hu using hpops
  have hfacts : ∀ k, uu k ∈ nodes
      ∧ (score (lawfulOps W maxv) (F^[k + 1] X) (uu k)).g
          = (score (lawfulOps W maxv) (F^[k] X) (uu k)).rhs
      ∧ (score (lawfulOps W maxv) (F^[k] X) (uu k)).rhs
          < (score (lawfulOps W maxv) (F^[k] X) (uu k)).g
      ∧ (score (lawfulOps W maxv) (F^[k] X) (uu k)).rhs
          ∈ ValsOf (edgeCosts fns nodes)
      ∧ (∀ n, n ≠ uu k → (score (lawfulOps W maxv) (F^[k + 1] X) n).g
          = (score (lawfulOps W maxv) (F^[k] X) n).g) := by
    intro k
    have h := (cspStep_runinv maxv hmax fns nodes hclosed hcost (F^[k] X)
      (hinv k)).2 (uu k) (ko k) (qr k) (hu k)
    rw [hsucc k]
    exact ⟨h.1, h.2.1, h.2.2.1, h.2.2.2.1, h.2.2.2.2.1⟩
  have hstep_le : ∀ k n, (score (lawfulOps W maxv) (F^[k + 1] X) n).g
      ≤ (score (lawfulOps W maxv) (F^[k] X) n).g := by
    intro k n
    by_cases hn : n = uu k
    · subst hn
      rw [(hfacts k).2.1]
      exact ((hfacts k).2.2.1).le
    · rw [(hfacts k).2.2.2.2 n hn]
  have hle : ∀ (n : N) (i j : Nat), i ≤ j →
      (score (lawfulOps W maxv) (F^[j] X) n).g
        ≤ (score (lawfulOps W maxv) (F^[i] X) n).g := by
    intro n i j hij
    induction hij with
    | refl => exact le_rfl
    | step h2 ih => exact le_trans (hstep_le _ n) ih
  have hexinf : ∃ n0 ∈ nodes, ({j | uu j = n0} : Set Nat).Infinite := by
    by_contra hfin
    push_neg at hfin
    have hfin' : ∀ n0 ∈ (↑nodes : Set N), ({j | uu j = n0} : Set Nat).Finite := by
      intro n0 hn0
      have h2 := hfin n0 (Finset.mem_coe.mp hn0)
      rwa [Set.not_infinite] at h2
    have hbig : (⋃ n ∈ (↑nodes : Set N), {j | uu j = n}).Finite :=
      Set.Finite.biUnion nodes.finite_toSet hfin'
    have huniv : (Set.univ : Set Nat) ⊆ ⋃ n ∈ (↑nodes : Set N), {j | uu j = n} :=
      fun k _ => Set.mem_biUnion (Finset.mem_coe.mpr (hfacts k).1) rfl
    exact Set.infinite_univ (hbig.subset huniv)
  obtain ⟨n0, hn0, hinf⟩ := hexinf
  have hC : ∀ c ∈ edgeCosts fns nodes, (0 : W) ≤ c := by
    intro c hcmem
    obtain ⟨n, hn, hcm⟩ := Finset.mem_biUnion.mp hcmem
    obtain ⟨e, he, rfl⟩ := List.mem_map.mp (List.mem_toFinset.mp hcm)
    exact hcost n hn e he
  apply valsOf_no_strict_descent (edgeCosts fns nodes) hC
    (fun i => (score (lawfulOps W maxv)
      (F^[Nat.nth (fun j => uu j = n0) i + 1] X) n0).g)
  · intro i
    have hmemi : uu (Nat.nth (fun j => uu j = n0) i) = n0 :=
      Nat.nth_mem_of_infinite hinf i
    have h2 := (hfacts (Nat.nth (fun j => uu j = n0) i)).2.1
    rw [hmemi] at h2
    rw [h2]
    have h3 := (hfacts (Nat.nth (fun j => uu j = n0) i)).2.2.2.1
    rwa [hmemi] at h3
  · intro i j hij
    have hni : uu (Nat.nth (fun j2 => uu j2 = n0) i) = n0 :=
      Nat.nth_mem_of_infinite hinf i
    have hnj : uu (Nat.nth (fun j2 => uu j2 = n0) j) = n0 :=
      Nat.nth_mem_of_infinite hinf j
    have hlt : Nat.nth (fun j2 => uu j2 = n0) i
        < Nat.nth (fun j2 => uu j2 = n0) j :=
      (Nat.nth_lt_nth hinf).mpr hij
    have hstrict : (score (lawfulOps W maxv)
          (F^[Nat.nth (fun j2 => uu j2 = n0) j + 1] X) n0).g
        < (score (lawfulOps W maxv)
          (F^[Nat.nth (fun j2 => uu j2 = n0) j] X) n0).g := by
      have h2 := (hfacts (Nat.nth (fun j2 => uu j2 = n0) j)).2.1
      rw [hnj] at h2
      have h3 := (hfacts (Nat.nth (fun j2 => uu j2 = n0) j)).2.2.1
      rw [hnj] at h3
      rw [h2]
      exact h3
    exact lt_of_lt_of_le hstrict
      (hle n0 (Nat.nth (fun j2 => uu j2 = n0) i + 1)
        (Nat.nth (fun j2 => uu j2 = n0) j) (Nat.succ_le_of_lt hlt))

/-- **C7**: over any lawful Weight instance (linearly ordered additive
monoid with a maximal sentinel distinct from `0`), for every finite
closed node universe and every heuristic that is admissible and
consistent in the sense that it is nonnegative and bounded along each
predecessor edge by that edge's cost, the initial
`compute_shortest_path` run of `new` terminates (some finite fuel makes
it return), and the loop's mechanism is as claimed: every reachable
iteration (any state satisfying the run invariant) pops a node,
finalises that node's consistency, and strictly decreases its `g` —
the popped entry leaving the queue is what shrinks the open set. -/
theorem c7_compute_shortest_path_terminates {N W : Type} [DecidableEq N]
    [DecidableEq W] [LinearOrderedAddCommMonoid W] (maxv : W)
    (hmax : ∀ a : W, a ≤ maxv) (hzm : (0 : W) ≠ maxv)
    (fns : DStarLiteFns N W) (nodes : Finset N) (start goal : N)
    (hgoal : goal ∈ nodes)
    (hclosed : ∀ n ∈ nodes, ∀ e ∈ fns.predecessors n, e.target ∈ nodes)
    (hh0 : ∀ a b : N, (0 : W) ≤ fns.heuristic a b)
    (hadm : ∀ n ∈ nodes, ∀ e ∈ fns.predecessors n,
      fns.heuristic e.target n ≤ e.cost) :
    (∃ (fuel : Nat) (st' : DStarLite N W),
      compute_shortest_path (lawfulOps W maxv) fns fuel
        (newInit (lawfulOps W maxv) fns start goal) = some st')
    ∧ (∀ st : DStarLite N W, RunInv (lawfulOps W maxv) fns nodes st →
        ∀ (u : N) (k_old : Priority W) (q1 : List (N × Priority W)),
          qPop (lawfulOps W maxv) st.queue = some ((u, k_old), q1) →
          ¬ Inconsistent (lawfulOps W maxv)
              (cspStep (lawfulOps W maxv) fns st) u
          ∧ (score (lawfulOps W maxv) (cspStep (lawfulOps W maxv) fns st) u).g
              < (score (lawfulOps W maxv) st u).g) := by
  have hcost : ∀ n ∈ nodes, ∀ e ∈ fns.predecessors n, (0 : W) ≤ e.cost :=
    fun n hn e he => le_trans (hh0 e.target n) (hadm n hn e he)
  constructor
  · obtain ⟨k, hk2⟩ := cspRun_terminates maxv hmax hzm fns nodes start goal
      hgoal hclosed hcost
    obtain ⟨st', hst'⟩ := compute_shortest_path_of_iterate (lawfulOps W maxv)
      fns k (newInit (lawfulOps W maxv) fns start goal) hk2
    exact ⟨k, st', hst'⟩
  · intro st hinv u k_old q1 hpop2
    have h := (cspStep_runinv maxv hmax fns nodes hclosed hcost st hinv).2
      u k_old q1 hpop2
    refine ⟨h.2.2.2.2.2, ?_⟩
    rw [h.2.1]
    exact h.2.2.1

/-- Witness for C7 over the extended naturals (sentinel `⊤`) with the
trivial oracle on the node universe `{0, 1}`: the initial run from
start `0` to goal `1` terminates and each reachable iteration
finalises the popped node's consistency while strictly decreasing its
`g`. -/
theorem c7_compute_shortest_path_terminates_witness :
    (∃ (fuel : Nat) (st' : DStarLite Nat (WithTop Nat)),
      compute_shortest_path (lawfulOps (WithTop Nat) ⊤) enatTrivialFns fuel
        (newInit (lawfulOps (WithTop Nat) ⊤) enatTrivialFns 0 1) = some st')
    ∧ (∀ st : DStarLite Nat (WithTop Nat),
        RunInv (lawfulOps (WithTop Nat) ⊤) enatTrivialFns
          ({0, 1} : Finset Nat) st →
        ∀ (u : Nat) (k_old : Priority (WithTop Nat))
          (q1 : List (Nat × Priority (WithTop Nat))),
          qPop (lawfulOps (WithTop Nat) ⊤) st.queue = some ((u, k_old), q1) →
          ¬ Inconsistent (lawfulOps (WithTop Nat) ⊤)
              (cspStep (lawfulOps (WithTop Nat) ⊤) enatTrivialFns st) u
          ∧ (score (lawfulOps (WithTop Nat) ⊤)
                (cspStep (lawfulOps (WithTop Nat) ⊤) enatTrivialFns st) u).g
              < (score (lawfulOps (WithTop Nat) ⊤) st u).g) :=
  c7_compute_shortest_path_terminates ⊤ (fun a => le_top) (by simp)
    enatTrivialFns ({0, 1} : Finset Nat) 0 1 (by simp)
    (fun n _ e he => absurd he (List.not_mem_nil e))
    (fun a b => le_refl 0)
    (fun n _ e he => absurd he (List.not_mem_nil e))

end Azalea
